import Mathlib

/-!
Verification of the dongshan-cli Agent Turn Engine (src/chat.rs) against its
natural-language specification.

Strings are modelled as `List Char`; the Rust code indexes by byte, but every
delimiter it scans for (braces, quotes, backslashes, backticks, whitespace)
is a single ASCII byte that can never occur inside a multi-byte UTF-8
sequence, so char-level indexing is faithful for all scanned structure.
`to_ascii_lowercase` is `Char.toLower` (which only lowers A-Z), `trim` strips
the ASCII whitespace recognised by `Char.isWhitespace`.
-/

namespace Dongshan

set_option maxRecDepth 4000

/-- Characters of a string literal. -/
def str (s : String) : List Char := s.data

/-- ASCII lowercasing of a char list (Rust `to_ascii_lowercase`). -/
def lowerStr (s : List Char) : List Char := s.map Char.toLower

/-- Whitespace test used for `trim` / `split_whitespace`. -/
def isWsChar (c : Char) : Bool := c.isWhitespace

/-- Drop trailing whitespace (Rust `trim_end`). -/
def trimRight (s : List Char) : List Char :=
  (s.reverse.dropWhile isWsChar).reverse

/-- Rust `str::trim`: strip leading and trailing whitespace. -/
def trimStr (s : List Char) : List Char :=
  trimRight (s.dropWhile isWsChar)

/-- Strip all leading and trailing occurrences of `ch` (Rust `trim_matches`). -/
def trimMatches (ch : Char) (s : List Char) : List Char :=
  ((s.dropWhile (· = ch)).reverse.dropWhile (· = ch)).reverse

/-- Accumulating worker for `splitWs`; `acc` holds the current token reversed. -/
def splitWsGo (acc : List Char) : List Char → List (List Char)
  | [] => if acc = [] then [] else [acc.reverse]
  | c :: rest =>
    if isWsChar c then
      if acc = [] then splitWsGo [] rest else acc.reverse :: splitWsGo [] rest
    else splitWsGo (c :: acc) rest

/-- Rust `str::split_whitespace`: whitespace-separated tokens, no empties. -/
def splitWs (s : List Char) : List (List Char) := splitWsGo [] s

/-- First index at which `pat` occurs in `s` (Rust `str::find`). -/
def findSub (pat : List Char) : List Char → Option Nat
  | [] => if pat.isPrefixOf [] then some 0 else none
  | c :: rest =>
    if pat.isPrefixOf (c :: rest) then some 0
    else (findSub pat rest).map (· + 1)

/-- Rust `str::contains` for a substring pattern. -/
def containsSub (s pat : List Char) : Bool := (findSub pat s).isSome

/-- Last `n` elements of a list (Rust `iter().rev().take(n).rev()`). -/
def takeLast (n : Nat) (l : List α) : List α := l.drop (l.length - n)

/-- Join pieces with a separator (Rust `Vec::join`). -/
def joinWith (sep : List Char) : List (List Char) → List Char
  | [] => []
  | [x] => x
  | x :: y :: rest => x ++ sep ++ joinWith sep (y :: rest)

/-- util.rs `truncate_with_suffix`: texts of fewer than `maxChars` chars pass
through; otherwise the first `maxChars` chars are kept and `suffix` appended
(at exactly `maxChars` chars the whole text gets the suffix, as in the
source's `count < max_chars` test). -/
def truncate_with_suffix (text : List Char) (maxChars : Nat) (suffix : List Char) :
    List Char :=
  if text.length < maxChars then text else text.take maxChars ++ suffix

/-- llm.rs `ChatMessage`. -/
structure ChatMessage where
  role : List Char
  content : List Char
deriving DecidableEq, Repr

/-- chat.rs `ToolCall`. -/
structure ToolCall where
  tool : List Char
  command : List Char
deriving DecidableEq, Repr

/-- config.rs `AutoExecMode`. -/
inductive AutoExecMode where
  | Safe
  | All
  | Custom
deriving DecidableEq, Repr

/-- config.rs `Config`, restricted to the fields the Agent Turn Engine reads. -/
structure Config where
  history_max_messages : Nat
  history_max_chars : Nat
  auto_exec_mode : AutoExecMode
  auto_exec_allow : List (List Char)
  auto_exec_deny : List (List Char)
  auto_confirm_exec : Bool
  auto_exec_trusted : List (List Char)
deriving DecidableEq, Repr

/-- chat.rs `MAX_AUTO_TOOL_STEPS`. -/
def MAX_AUTO_TOOL_STEPS : Nat := 3

/-- chat.rs `MAX_COMMANDS_PER_RESPONSE`. -/
def MAX_COMMANDS_PER_RESPONSE : Nat := 8

/-- chat.rs `MAX_FAILED_COMMANDS_PER_RESPONSE`. -/
def MAX_FAILED_COMMANDS_PER_RESPONSE : Nat := 2

/-- chat.rs `MAX_INVALID_FORMAT_RETRIES`. -/
def MAX_INVALID_FORMAT_RETRIES : Nat := 2

/-- chat.rs `matches_list`: some entry of the list, trimmed and
ASCII-lowercased, is a non-empty prefix of the lowercased command. -/
def matches_list (list : List (List Char)) (cmd : List Char) : Bool :=
  let cmdL := lowerStr cmd
  list.any fun item =>
    let s := lowerStr (trimStr item)
    !s.isEmpty && s.isPrefixOf cmdL

/-- chat.rs `is_safe_auto_exec_command`: fixed whitelist of read-only verbs. -/
def is_safe_auto_exec_command (cmd : List Char) : Bool :=
  match splitWs cmd with
  | [] => false
  | first :: rest =>
    let f := lowerStr first
    if f = str "ls" || f = str "dir" || f = str "pwd" || f = str "cat" ||
        f = str "type" || f = str "rg" || f = str "grep" || f = str "findstr" ||
        f = str "tree" || f = str "find" then true
    else if f = str "get-childitem" || f = str "get-content" ||
        f = str "get-location" then true
    else if f = str "git" then
      match rest with
      | second :: _ =>
        let s := lowerStr second
        s = str "status" || s = str "diff" || s = str "log" ||
          s = str "show" || s = str "branch"
      | [] => false
    else false

/-- chat.rs `is_command_allowed`: the deny-list is checked first and always
wins; otherwise the mode decides. -/
def is_command_allowed (cfg : Config) (cmd : List Char) : Bool :=
  if matches_list cfg.auto_exec_deny cmd then false
  else
    match cfg.auto_exec_mode with
    | .All => true
    | .Safe => is_safe_auto_exec_command cmd
    | .Custom => matches_list cfg.auto_exec_allow cmd

/-- chat.rs `is_trusted_command`. -/
def is_trusted_command (cfg : Config) (cmd : List Char) : Bool :=
  matches_list cfg.auto_exec_trusted cmd

/-- Total history size in characters, `history.iter().map(|m| m.content.chars().count()).sum()`. -/
def totalChars (history : List ChatMessage) : Nat :=
  (history.map (fun m => m.content.length)).sum

/-- chat.rs `summarize_history`: render the last 20 messages as clipped
single-line `- role: text` items and clip the whole summary to 4000 chars. -/
def summarize_history (messages : List ChatMessage) : List Char :=
  let lines := (takeLast 20 messages).map fun m =>
    let role := if m.role = str "user" then str "user" else str "assistant"
    let short := truncate_with_suffix (trimStr m.content) 220 (str "...")
    str "- " ++ role ++ str ": " ++ short.map (fun c => if c = '\n' then ' ' else c)
  let out := str "Compressed earlier context:\n" ++ joinWith (str "\n") lines
  truncate_with_suffix out 4000 (str "...\n[summary truncated]")

/-- The single synthesized message that replaces the compacted prefix
(the `ChatMessage` pushed by `maybe_compact_history`). -/
def summaryMessage (older : List ChatMessage) : ChatMessage :=
  ⟨str "assistant", str "[session-summary]\n" ++ summarize_history older⟩

/-- chat.rs `maybe_compact_history` (returning the new history instead of
mutating it in place). -/
def maybe_compact_history (cfg : Config) (history : List ChatMessage) :
    List ChatMessage :=
  let max_messages := max cfg.history_max_messages 4
  let max_chars := max cfg.history_max_chars 2000
  let total_chars := totalChars history
  if history.length ≤ max_messages ∧ total_chars ≤ max_chars then history
  else if history.length < 8 then history
  else
    let tail_keep := min (max (max_messages / 2) 6) (history.length - 1)
    let split_at := history.length - tail_keep
    if split_at = 0 then history
    else summaryMessage (history.take split_at) :: history.drop split_at

/-- Effective max-message ceiling (`cfg.history_max_messages.max(4)`). -/
def effMaxMessages (cfg : Config) : Nat := max cfg.history_max_messages 4

/-- Effective max-character ceiling (`cfg.history_max_chars.max(2000)`). -/
def effMaxChars (cfg : Config) : Nat := max cfg.history_max_chars 2000

/-- Number of tail messages compaction keeps: `(max_messages/2).max(6)` capped
at one less than the history length. -/
def compactTailKeep (cfg : Config) (history : List ChatMessage) : Nat :=
  min (max (effMaxMessages cfg / 2) 6) (history.length - 1)

/-- chat.rs `find_matching_brace` scanner: walks the text from index `i`
tracking brace `depth`, string-literal state and escape state. -/
def fmbAux : List Char → Nat → Nat → Bool → Bool → Option Nat
  | [], _, _, _, _ => none
  | c :: rest, i, depth, inString, escaped =>
    if inString then
      if escaped then fmbAux rest (i + 1) depth true false
      else if c = '\\' then fmbAux rest (i + 1) depth true true
      else if c = '"' then fmbAux rest (i + 1) depth false false
      else fmbAux rest (i + 1) depth true false
    else if c = '"' then fmbAux rest (i + 1) depth true false
    else if c = '{' then fmbAux rest (i + 1) (depth + 1) false false
    else if c = '}' then
      if depth = 0 then none
      else if depth = 1 then some i
      else fmbAux rest (i + 1) (depth - 1) false false
    else fmbAux rest (i + 1) depth false false

/-- chat.rs `find_matching_brace`: `None` unless `text[start]` is `{`, else
scan from `start` for the matching close brace, treating string-literal
contents (including escaped quotes) as opaque. -/
def find_matching_brace (text : List Char) (start : Nat) : Option Nat :=
  if text[start]? = some '{' then fmbAux (text.drop start) start 0 false false
  else none

/-- Body of a JSON string literal as the scanner sees it: plain chars (not a
quote and not a backslash) and backslash escape pairs (so `\"` is content,
not a string delimiter). -/
inductive StrBody : List Char → Prop where
  | nil : StrBody []
  | plain (c : Char) (s : List Char) :
      c ≠ '"' → c ≠ '\\' → StrBody s → StrBody (c :: s)
  | esc (c : Char) (s : List Char) : StrBody s → StrBody ('\\' :: c :: s)

/-- Brace-balanced text: plain chars, complete string literals, and nested
balanced `{...}` groups. This is the syntactic well-formedness under which
"the matching closing brace" is meaningful. -/
inductive Balanced : List Char → Prop where
  | nil : Balanced []
  | ch (c : Char) (s : List Char) :
      c ≠ '{' → c ≠ '}' → c ≠ '"' → Balanced s → Balanced (c :: s)
  | strLit (b s : List Char) :
      StrBody b → Balanced s → Balanced ('"' :: (b ++ '"' :: s))
  | obj (inner s : List Char) :
      Balanced inner → Balanced s → Balanced ('{' :: (inner ++ '}' :: s))

/-- String-literal tail checker: given the text after an opening quote,
consume the remainder of the literal; returns what follows the closing
quote. Fuel-based executable companion of `StrBody`. -/
def strTailChk : Nat → List Char → Option (List Char)
  | 0, _ => none
  | _ + 1, [] => none
  | f + 1, c :: rest =>
    if c = '"' then some rest
    else if c = '\\' then
      match rest with
      | [] => none
      | _ :: rest2 => strTailChk f rest2
    else strTailChk f rest

/-- Balanced-content checker: consume chars, string literals and nested
brace groups until an unmatched `}` or the end of input; executable
companion of `Balanced`. -/
def balItems : Nat → List Char → Option (List Char)
  | 0, _ => none
  | _ + 1, [] => some []
  | f + 1, c :: rest =>
    if c = '}' then some (c :: rest)
    else if c = '"' then
      match strTailChk (rest.length + 1) rest with
      | some rest2 => balItems f rest2
      | none => none
    else if c = '{' then
      match balItems f rest with
      | some rest2 =>
        match rest2 with
        | c2 :: rest3 => if c2 = '}' then balItems f rest3 else none
        | [] => none
      | none => none
    else balItems f rest

/-- Decidable sufficient condition for `Balanced`. -/
def balancedChk (s : List Char) : Bool :=
  balItems (2 * s.length + 2) s = some []

mutual
inductive Json where
  | null
  | bool (b : Bool)
  | num (raw : List Char)
  | str (s : List Char)
  | arr (items : JsonList)
  | obj (fields : JsonFields)
deriving DecidableEq, Repr

inductive JsonList where
  | nil
  | cons (hd : Json) (tl : JsonList)
deriving DecidableEq, Repr

inductive JsonFields where
  | nil
  | cons (key : List Char) (val : Json) (tl : JsonFields)
deriving DecidableEq, Repr
end

/-- serde_json object lookup. serde's default map inserts duplicate keys by
overwrite, so the last binding of a key wins. -/
def jsonLookup : JsonFields → List Char → Option Json
  | .nil, _ => none
  | .cons k v tl, key =>
    match jsonLookup tl key with
    | some v2 => some v2
    | none => if k = key then some v else none

/-- serde_json `Value::as_str`. -/
def jsonAsStr : Json → Option (List Char)
  | .str s => some s
  | _ => none

mutual
def sizeJson : Json → Nat
  | .arr items => sizeJsonList items + 1
  | .obj fields => sizeJsonFields fields + 1
  | _ => 1

def sizeJsonList : JsonList → Nat
  | .nil => 1
  | .cons v tl => sizeJson v + sizeJsonList tl + 1

def sizeJsonFields : JsonFields → Nat
  | .nil => 1
  | .cons _ v tl => sizeJson v + sizeJsonFields tl + 1
end

/-- The tool-name field of a candidate object:
`map.get("tool").or_else(|| map.get("type")).and_then(as_str).unwrap_or("")`. -/
def toolFieldOf (fields : JsonFields) : List Char :=
  (((jsonLookup fields (str "tool")).or
      (jsonLookup fields (str "type"))).bind jsonAsStr).getD []

/-- The command field of a candidate object:
`map.get("command").or_else(|| map.get("cmd")).and_then(as_str).unwrap_or("")`. -/
def commandFieldOf (fields : JsonFields) : List Char :=
  (((jsonLookup fields (str "command")).or
      (jsonLookup fields (str "cmd"))).bind jsonAsStr).getD []

mutual
/-- chat.rs `collect_tool_calls_from_value`, fuel-based (fuel `sizeJson v` is
always sufficient; the wrapper below supplies it): arrays are flattened,
objects with a `tool_calls` key recurse into that key's value, and any other
object yields one ToolCall when both normalized fields are non-empty. -/
def collectVFuel : Nat → Json → List ToolCall → List ToolCall
  | 0, _, out => out
  | fuel + 1, v, out =>
    match v with
    | .arr items => collectLFuel fuel items out
    | .obj fields =>
      match jsonLookup fields (str "tool_calls") with
      | some calls => collectVFuel fuel calls out
      | none =>
        let tool := toolFieldOf fields
        let command := commandFieldOf fields
        if trimStr tool ≠ [] ∧ trimStr command ≠ [] then
          out ++ [⟨tool, command⟩]
        else out
    | _ => out

def collectLFuel : Nat → JsonList → List ToolCall → List ToolCall
  | 0, _, out => out
  | _ + 1, .nil, out => out
  | fuel + 1, .cons v tl, out => collectLFuel fuel tl (collectVFuel fuel v out)
end

/-- chat.rs `collect_tool_calls_from_value` with its always-sufficient fuel. -/
def collect_tool_calls_from_value (v : Json) (out : List ToolCall) :
    List ToolCall :=
  collectVFuel (sizeJson v) v out

mutual
/-- Spec §4.1 step 1, as a relation: `FlattensTo v l` holds when `l` is the
flattened list of tool/command pairs of `v` in source order — arrays are
flattened, an object containing a `tool_calls` key recurses into that key's
value, and any other object contributes one pair exactly when its tool-name
field (`tool` or `type`) and command field (`command` or `cmd`) are both
non-empty after trimming. -/
inductive FlattensTo : Json → List ToolCall → Prop where
  | null : FlattensTo .null []
  | bool (b : Bool) : FlattensTo (.bool b) []
  | num (raw : List Char) : FlattensTo (.num raw) []
  | strv (s : List Char) : FlattensTo (.str s) []
  | arr (items : JsonList) (l : List ToolCall) :
      FlattensToL items l → FlattensTo (.arr items) l
  | objCalls (fields : JsonFields) (calls : Json) (l : List ToolCall) :
      jsonLookup fields (str "tool_calls") = some calls →
      FlattensTo calls l → FlattensTo (.obj fields) l
  | objPair (fields : JsonFields) :
      jsonLookup fields (str "tool_calls") = none →
      trimStr (toolFieldOf fields) ≠ [] →
      trimStr (commandFieldOf fields) ≠ [] →
      FlattensTo (.obj fields) [⟨toolFieldOf fields, commandFieldOf fields⟩]
  | objDrop (fields : JsonFields) :
      jsonLookup fields (str "tool_calls") = none →
      (trimStr (toolFieldOf fields) = [] ∨
        trimStr (commandFieldOf fields) = []) →
      FlattensTo (.obj fields) []

inductive FlattensToL : JsonList → List ToolCall → Prop where
  | nil : FlattensToL .nil []
  | cons (v : Json) (tl : JsonList) (l1 l2 : List ToolCall) :
      FlattensTo v l1 → FlattensToL tl l2 →
      FlattensToL (.cons v tl) (l1 ++ l2)
end

/-- serde_json whitespace (space, tab, newline, carriage return). -/
def isJsonWs (c : Char) : Bool := c = ' ' || c = '\t' || c = '\n' || c = '\r'

def skipJsonWs (s : List Char) : List Char := s.dropWhile isJsonWs

def hexDigitVal (c : Char) : Option Nat :=
  if '0' ≤ c ∧ c ≤ '9' then some (c.toNat - '0'.toNat)
  else if 'a' ≤ c ∧ c ≤ 'f' then some (c.toNat - 'a'.toNat + 10)
  else if 'A' ≤ c ∧ c ≤ 'F' then some (c.toNat - 'A'.toNat + 10)
  else none

def parseHex4 : List Char → Option (Nat × List Char)
  | c1 :: c2 :: c3 :: c4 :: rest =>
    match hexDigitVal c1, hexDigitVal c2, hexDigitVal c3, hexDigitVal c4 with
    | some h1, some h2, some h3, some h4 =>
      some (((h1 * 16 + h2) * 16 + h3) * 16 + h4, rest)
    | _, _, _, _ => none
  | _ => none

/-- JSON `\uXXXX` escape, combining surrogate pairs as serde does and
rejecting lone surrogates. -/
def parseUnicodeEscape (s : List Char) : Option (Char × List Char) :=
  match parseHex4 s with
  | none => none
  | some (h, rest) =>
    if 0xD800 ≤ h ∧ h ≤ 0xDBFF then
      match rest with
      | '\\' :: 'u' :: rest2 =>
        match parseHex4 rest2 with
        | some (lo, rest3) =>
          if 0xDC00 ≤ lo ∧ lo ≤ 0xDFFF then
            some (Char.ofNat (0x10000 + (h - 0xD800) * 0x400 + (lo - 0xDC00)),
              rest3)
          else none
        | none => none
      | _ => none
    else if 0xDC00 ≤ h ∧ h ≤ 0xDFFF then none
    else some (Char.ofNat h, rest)

def escapeChar (e : Char) : Option Char :=
  if e = '"' then some '"'
  else if e = '\\' then some '\\'
  else if e = '/' then some '/'
  else if e = 'b' then some (Char.ofNat 8)
  else if e = 'f' then some (Char.ofNat 12)
  else if e = 'n' then some '\n'
  else if e = 'r' then some '\r'
  else if e = 't' then some '\t'
  else none

/-- JSON string literal body after the opening quote: content plus what
follows the closing quote. Unescaped control chars are rejected. -/
def parseStringBody : Nat → List Char → Option (List Char × List Char)
  | 0, _ => none
  | _ + 1, [] => none
  | f + 1, c :: rest =>
    if c = '"' then some ([], rest)
    else if c = '\\' then
      match rest with
      | [] => none
      | e :: rest2 =>
        if e = 'u' then
          match parseUnicodeEscape rest2 with
          | some (ch, rest3) =>
            match parseStringBody f rest3 with
            | some (body, rest4) => some (ch :: body, rest4)
            | none => none
          | none => none
        else
          match escapeChar e with
          | some ch =>
            match parseStringBody f rest2 with
            | some (body, rest3) => some (ch :: body, rest3)
            | none => none
          | none => none
    else if c.toNat < 0x20 then none
    else
      match parseStringBody f rest with
      | some (body, rest2) => some (c :: body, rest2)
      | none => none

def parseIntPart : List Char → Option (List Char × List Char)
  | [] => none
  | c :: rest =>
    if c = '0' then some ([c], rest)
    else if c.isDigit then
      some (c :: rest.takeWhile (·.isDigit), rest.dropWhile (·.isDigit))
    else none

def parseFracPart : List Char → Option (List Char × List Char)
  | '.' :: rest =>
    if rest.takeWhile (·.isDigit) = [] then none
    else some ('.' :: rest.takeWhile (·.isDigit), rest.dropWhile (·.isDigit))
  | s => some ([], s)

def parseExpPart : List Char → Option (List Char × List Char)
  | [] => some ([], [])
  | c :: rest =>
    if c = 'e' ∨ c = 'E' then
      match rest with
      | [] => none
      | sgn :: rest2 =>
        if sgn = '+' ∨ sgn = '-' then
          if rest2.takeWhile (·.isDigit) = [] then none
          else some (c :: sgn :: rest2.takeWhile (·.isDigit),
            rest2.dropWhile (·.isDigit))
        else
          if rest.takeWhile (·.isDigit) = [] then none
          else some (c :: rest.takeWhile (·.isDigit),
            rest.dropWhile (·.isDigit))
    else some ([], c :: rest)

def parseNumTail (rest : List Char) : Option (List Char × List Char) :=
  match parseIntPart rest with
  | none => none
  | some (ip, r1) =>
    match parseFracPart r1 with
    | none => none
    | some (fp, r2) =>
      match parseExpPart r2 with
      | none => none
      | some (ep, r3) => some (ip ++ fp ++ ep, r3)

/-- JSON number grammar; the raw spelling is kept since the numeric value is
never inspected by the extractor. -/
def parseNumber : List Char → Option (List Char × List Char)
  | '-' :: rest => (parseNumTail rest).map (fun p => ('-' :: p.1, p.2))
  | s => parseNumTail s

def dropLit (lit : List Char) (s : List Char) : Option (List Char) :=
  if lit.isPrefixOf s then some (s.drop lit.length) else none

mutual
/-- One JSON value (serde_json grammar), fuel-based; every mutual call
consumes at least one input char first, so fuel `2*len+2` is ample. -/
def parseValueFuel : Nat → List Char → Option (Json × List Char)
  | 0, _ => none
  | f + 1, s =>
    match s with
    | [] => none
    | c :: rest =>
      if c = '"' then
        match parseStringBody (rest.length + 1) rest with
        | some (body, rest2) => some (.str body, rest2)
        | none => none
      else if c = '{' then
        match parseObjFuel f (skipJsonWs rest) true with
        | some (fields, rest2) => some (.obj fields, rest2)
        | none => none
      else if c = '[' then
        match parseArrFuel f (skipJsonWs rest) true with
        | some (items, rest2) => some (.arr items, rest2)
        | none => none
      else if c = 't' then
        match dropLit (str "rue") rest with
        | some rest2 => some (.bool true, rest2)
        | none => none
      else if c = 'f' then
        match dropLit (str "alse") rest with
        | some rest2 => some (.bool false, rest2)
        | none => none
      else if c = 'n' then
        match dropLit (str "ull") rest with
        | some rest2 => some (.null, rest2)
        | none => none
      else
        match parseNumber (c :: rest) with
        | some (raw, rest2) => some (.num raw, rest2)
        | none => none

/-- Array elements after `[` (`first = true`) or after a comma
(`first = false`, so a closing bracket is not allowed). -/
def parseArrFuel : Nat → List Char → Bool → Option (JsonList × List Char)
  | 0, _, _ => none
  | f + 1, s, first =>
    match s with
    | ']' :: rest => if first then some (.nil, rest) else none
    | _ =>
      match parseValueFuel f s with
      | some (v, rest2) =>
        match skipJsonWs rest2 with
        | ',' :: rest3 =>
          match parseArrFuel f (skipJsonWs rest3) false with
          | some (items, rest4) => some (.cons v items, rest4)
          | none => none
        | ']' :: rest3 => some (.cons v .nil, rest3)
        | _ => none
      | none => none

/-- Object entries after `{` (`first = true`) or after a comma. -/
def parseObjFuel : Nat → List Char → Bool → Option (JsonFields × List Char)
  | 0, _, _ => none
  | f + 1, s, first =>
    match s with
    | '}' :: rest => if first then some (.nil, rest) else none
    | '"' :: rest =>
      match parseStringBody (rest.length + 1) rest with
      | some (key, rest2) =>
        match skipJsonWs rest2 with
        | ':' :: rest3 =>
          match parseValueFuel f (skipJsonWs rest3) with
          | some (v, rest4) =>
            match skipJsonWs rest4 with
            | ',' :: rest5 =>
              match parseObjFuel f (skipJsonWs rest5) false with
              | some (fields, rest6) => some (.cons key v fields, rest6)
              | none => none
            | '}' :: rest5 => some (.cons key v .nil, rest5)
            | _ => none
          | none => none
        | _ => none
      | none => none
    | _ => none
end

/-- serde_json `from_str::<Value>`: one JSON value with surrounding
whitespace allowed and end of input required. (serde's 128-level recursion
limit is not modelled; the extractor's payloads are far shallower.) -/
def parseJson (s : List Char) : Option Json :=
  let s1 := skipJsonWs s
  match parseValueFuel (2 * s1.length + 2) s1 with
  | some (v, rest) => if skipJsonWs rest = [] then some v else none
  | none => none

/-- Index after skipping fence whitespace from `j` (the source's `while`
loop over space, tab, CR, LF). -/
def skipWsFrom (text : List Char) (j : Nat) : Nat :=
  j + ((text.drop j).takeWhile isJsonWs).length

/-- chat.rs `collect_tool_calls_from_fence` loop, fuel-based: the source
loop strictly advances its index each iteration (the fence delimiters are
non-empty), so fuel `text.length + 1` is ample. -/
def collectFenceFuel (text opn cls : List Char) (skipTick : Bool) :
    Nat → Nat → List ToolCall → List ToolCall
  | 0, _, out => out
  | fuel + 1, i, out =>
    if i < text.length then
      match findSub opn (text.drop i) with
      | none => out
      | some pos =>
        let openIdx := i + pos
        if skipTick ∧ 0 < openIdx ∧ text[openIdx - 1]? = some '`' then
          collectFenceFuel text opn cls skipTick fuel (openIdx + opn.length) out
        else
          let jsonStart := skipWsFrom text (openIdx + opn.length)
          if text.length ≤ jsonStart then out
          else
            match findSub cls (text.drop jsonStart) with
            | none => out
            | some endRel =>
              let block := trimStr ((text.drop jsonStart).take endRel)
              let out2 :=
                if block ≠ [] then
                  match parseJson block with
                  | some v => collect_tool_calls_from_value v out
                  | none => out
                else out
              collectFenceFuel text opn cls skipTick fuel
                (jsonStart + endRel + cls.length) out2
    else out

/-- chat.rs `collect_tool_calls_from_inline_json` loop, fuel-based: the index
advances by at least one each iteration, so fuel `text.length + 1` is ample. -/
def collectInlineFuel (text : List Char) :
    Nat → Nat → List ToolCall → List ToolCall
  | 0, _, out => out
  | fuel + 1, i, out =>
    if i < text.length then
      if text[i]? = some '{' then
        match find_matching_brace text i with
        | some e =>
          let candidate := (text.take (e + 1)).drop i
          if containsSub candidate (str "\"tool_calls\"") then
            match parseJson candidate with
            | some v =>
              collectInlineFuel text fuel (e + 1)
                (collect_tool_calls_from_value v out)
            | none => collectInlineFuel text fuel (i + 1) out
          else collectInlineFuel text fuel (i + 1) out
        | none => collectInlineFuel text fuel (i + 1) out
      else collectInlineFuel text fuel (i + 1) out
    else out

/-- chat.rs `contains_legacy_shell_block`. -/
def contains_legacy_shell_block (text : List Char) : Bool :=
  let t := lowerStr text
  containsSub t (str "```bash") || containsSub t (str "```sh") ||
    containsSub t (str "```powershell") || containsSub t (str "```pwsh") ||
    containsSub t (str "```cmd")

/-- chat.rs `contains_tool_call_hint`. -/
def contains_tool_call_hint (text : List Char) : Bool :=
  let t := lowerStr text
  containsSub t (str "tool_calls") || containsSub t (str "\"tool\"") ||
    containsSub t (str "```json") || containsSub t (str "``json")

/-- chat.rs `extract_tool_calls`: strict ```json fences, then the degraded
``json fence fallback (skipping matches preceded by a stray backtick), then
bare inline JSON objects containing a `tool_calls` key. -/
def extract_tool_calls (text : List Char) : List ToolCall :=
  let out1 := collectFenceFuel text (str "```json") (str "```") false
    (text.length + 1) 0 []
  let out2 := collectFenceFuel text (str "``json") (str "``") true
    (text.length + 1) 0 out1
  collectInlineFuel text (text.length + 1) 0 out2

/-- The effectful collaborators of the execution pass, as oracles:
`run` is chat.rs `run_shell_command` (combined output text), `fileExists` is
`Path::new(..).exists()` used by precheck, `askAnswer` is util.rs `ask`
(the user's reply to a confirmation prompt). -/
structure Env where
  run : List Char → List Char
  fileExists : List Char → Bool
  askAnswer : List Char → List Char

/-- The `python`/`python3` script-existence rule of `precheck_command`. -/
def precheckPython (env : Env) (first : List Char)
    (tokens : List (List Char)) : Option (List Char) :=
  if first = str "python" ∨ first = str "python3" then
    match tokens with
    | _ :: tok1 :: _ =>
      let script := trimMatches '\'' (trimMatches '"' tok1)
      if (str ".py").isSuffixOf script ∧ env.fileExists script = false then
        some (str "script not found: " ++ script)
      else none
    | _ => none
  else none

/-- The `pip .. -r <file>` rule of `precheck_command`: the first `-r` whose
following token names a missing file is reported. -/
def pipMissingReq (env : Env) : List (List Char) → Option (List Char)
  | t1 :: t2 :: rest =>
    if t1 = str "-r" then
      let req := trimMatches '\'' (trimMatches '"' t2)
      if env.fileExists req = false then
        some (str "requirements file not found: " ++ req)
      else pipMissingReq env (t2 :: rest)
    else pipMissingReq env (t2 :: rest)
  | _ => none

/-- chat.rs `precheck_command`: static, policy-independent rejection.
`cmd.len()` is the byte length in Rust; for the ASCII commands concerned it
equals the char count used here. -/
def precheck_command (env : Env) (cmd : List Char) : Option (List Char) :=
  match splitWs cmd with
  | [] => some (str "empty command")
  | tok0 :: toks =>
    let first := lowerStr tok0
    let lower := lowerStr cmd
    if (containsSub lower (str "base64") ||
        containsSub lower (str "frombase64string") ||
        containsSub lower (str "[convert]::frombase64string")) = true ∧
        700 < cmd.length then
      some (str "base64 payload too long; use small script file workflow instead")
    else if (first = str "python" ∨ first = str "python3") ∧
        containsSub lower (str " -c ") = true ∧
        (cmd.contains '\n' = true ∨ 360 < cmd.length) then
      some (str "python -c is too long/multiline; write .py file then run it")
    else
      match precheckPython env first (tok0 :: toks) with
      | some r => some r
      | none =>
        if first = str "pip" ∧ containsSub cmd (str "-r") = true then
          pipMissingReq env (tok0 :: toks)
        else none

/-- chat.rs `looks_like_command_failure`. -/
def looks_like_command_failure (output : List Char) : Bool :=
  let s := lowerStr output
  containsSub s (str "commandnotfoundexception") ||
    containsSub s (str "can" ++ [Char.ofNat 39] ++ str "t open file") ||
    containsSub s (str "no such file") ||
    containsSub s (str "module not found") ||
    containsSub s (str "traceback") ||
    containsSub s (str "is not recognized")

/-- chat.rs `command_prefix` (named `commandPref` here): the first
whitespace token, or `git <sub-verb>` for git commands. -/
def commandPref (cmd : List Char) : List Char :=
  match splitWs cmd with
  | [] => []
  | first :: rest =>
    if lowerStr first = str "git" then
      match rest with
      | second :: _ => str "git " ++ second
      | [] => first
    else first

/-- chat.rs `ExecResult`. -/
structure ExecResult where
  executed_any : Bool
  had_blocks : Bool
  skipped_any : Bool
  invalid_format : Bool
  had_failures : Bool
  display_text : List Char
  history_text : List Char
deriving DecidableEq, Repr

/-- The mutable state of the command loop in
`maybe_execute_assistant_commands` (`display`, `history` and the four
counters), plus the `&mut Config` (mutated by the always-trust choice). -/
structure ExecState where
  display : List Char
  history : List Char
  executedCount : Nat
  skippedCount : Nat
  seenCount : Nat
  failedCount : Nat
  cfg : Config
deriving DecidableEq, Repr

/-- The `for call in calls` loop of `maybe_execute_assistant_commands`.
Returning the state models `break`; recursing models `continue`. The
confirmation prompt is util.rs `tagged_prompt` (not present in this source
snapshot; modelled as a `[tag] ` prefix, which no claim depends on). -/
def execCommandsLoop (env : Env) : List ToolCall → ExecState → ExecState
  | [], st => st
  | call :: restCalls, st =>
    if lowerStr call.tool ≠ str "shell" then execCommandsLoop env restCalls st
    else
      let cmd := trimStr call.command
      if cmd = [] then execCommandsLoop env restCalls st
      else if MAX_COMMANDS_PER_RESPONSE ≤ st.seenCount then
        let line := str "Stopped auto exec after 8 commands to avoid noisy output.\n"
        { st with display := st.display ++ line, history := st.history ++ line }
      else
        let st1 := { st with seenCount := st.seenCount + 1 }
        match precheck_command env cmd with
        | some reason =>
          let line := str "Skipped command: " ++ cmd ++ str " (" ++ reason ++
            str ")\n"
          let st2 := { st1 with
            display := st1.display ++ line,
            history := st1.history ++ line,
            skippedCount := st1.skippedCount + 1 }
          execCommandsLoop env restCalls st2
        | none =>
          if is_command_allowed st1.cfg cmd = false then
            let line := str "Skipped unsafe command: " ++ cmd ++ str "\n"
            let st2 := { st1 with
              display := st1.display ++ line,
              history := st1.history ++ line,
              skippedCount := st1.skippedCount + 1 }
            execCommandsLoop env restCalls st2
          else
            let runIt : ExecState → ExecState := fun st2 =>
              let out := env.run cmd
              let st3 := { st2 with
                display := st2.display ++ str "$ " ++ cmd ++ str "\n" ++ out ++
                  str "\n",
                history := st2.history ++ str "Executed: " ++ cmd ++
                  str "\nOutput:\n" ++ out ++ str "\n",
                executedCount := st2.executedCount + 1 }
              if looks_like_command_failure out then
                let st4 := { st3 with failedCount := st3.failedCount + 1 }
                if MAX_FAILED_COMMANDS_PER_RESPONSE ≤ st4.failedCount then
                  let line := str "Stopped auto exec after 2 failed commands.\n"
                  { st4 with
                    display := st4.display ++ line,
                    history := st4.history ++ line }
                else execCommandsLoop env restCalls st4
              else execCommandsLoop env restCalls st3
            if st1.cfg.auto_confirm_exec = true ∧
                is_trusted_command st1.cfg cmd = false then
              let p := commandPref cmd
              let prompt := str "[exec-confirm] Run command `" ++ cmd ++
                str "` ? [y=yes]/[n=no]/[a=always `" ++ p ++ str "`]/[q=stop]: "
              let choice := lowerStr (trimStr (env.askAnswer prompt))
              if choice = str "q" then
                let line := str "User stopped command execution.\n"
                { st1 with
                  display := st1.display ++ line,
                  history := st1.history ++ line }
              else if choice = str "a" then
                let st2 :=
                  if (st1.cfg.auto_exec_trusted.any
                      (fun x => lowerStr x = lowerStr p)) = false then
                    { st1 with cfg := { st1.cfg with
                      auto_exec_trusted := st1.cfg.auto_exec_trusted ++ [p] } }
                  else st1
                runIt st2
              else if choice ≠ str "y" then
                let line := str "Skipped by user: " ++ cmd ++ str "\n"
                let st2 := { st1 with
                  display := st1.display ++ line,
                  history := st1.history ++ line,
                  skippedCount := st1.skippedCount + 1 }
                execCommandsLoop env restCalls st2
              else runIt st1
            else runIt st1

/-- chat.rs `maybe_execute_assistant_commands`: one execution pass over one
model reply, returning the `ExecResult` and the possibly-updated config. -/
def maybe_execute_assistant_commands (env : Env) (cfg : Config)
    (answer : List Char) : ExecResult × Config :=
  let calls := extract_tool_calls answer
  if calls = [] then
    if contains_legacy_shell_block answer then
      let msg := str "Detected legacy shell block. Skipped: use JSON tool_calls instead.\n"
      ({ executed_any := false, had_blocks := true, skipped_any := true,
         invalid_format := true, had_failures := false,
         display_text := '\n' :: msg,
         history_text := str "tool[shell.auto_exec] output:\n" ++ msg }, cfg)
    else if contains_tool_call_hint answer then
      let msg := str "Detected malformed or incomplete tool_calls JSON. Skipped; ask model to retry with valid JSON tool_calls.\n"
      ({ executed_any := false, had_blocks := true, skipped_any := true,
         invalid_format := true, had_failures := false,
         display_text := '\n' :: msg,
         history_text := str "tool[shell.auto_exec] output:\n" ++ msg }, cfg)
    else
      ({ executed_any := false, had_blocks := false, skipped_any := false,
         invalid_format := false, had_failures := false,
         display_text := [], history_text := [] }, cfg)
  else
    let st := execCommandsLoop env calls ⟨[], [], 0, 0, 0, 0, cfg⟩
    ({ executed_any := decide (0 < st.executedCount), had_blocks := true,
       skipped_any := decide (0 < st.skippedCount), invalid_format := false,
       had_failures := decide (0 < st.failedCount),
       display_text := '\n' :: st.display,
       history_text := str "tool[shell.auto_exec] output:\n" ++ st.history },
      st.cfg)

/-- How one modelled agent turn ended: a plain final answer (no blocks), the
step limit, the skipped-tool-calls message, or `pending` — the scripted
reply list ran out while the loop was about to issue another model request. -/
inductive TurnEnd where
  | finalAnswer
  | stepLimit
  | skipMessage
  | pending
deriving DecidableEq, Repr

/-- Number of model requests issued and how the turn ended. -/
structure LoopOutcome where
  requests : Nat
  outcome : TurnEnd
deriving DecidableEq, Repr

/-- chat.rs `run_agent_turn_with_system` control flow, over a scripted
sequence of model replies (each reply consumed is one model request).
History bookkeeping, printing and verification do not influence the control
flow and are not modelled; the config is threaded through as in the source. -/
def runAgentLoop (env : Env) :
    List (List Char) → Config → Nat → Nat → Nat → LoopOutcome
  | [], _, _, _, _ => ⟨0, .pending⟩
  | answer :: rest, cfg, steps, unsafeRetries, invalidRetries =>
    let res := maybe_execute_assistant_commands env cfg answer
    let er := res.1
    if er.had_blocks = false then ⟨1, .finalAnswer⟩
    else if er.executed_any = true then
      if MAX_AUTO_TOOL_STEPS ≤ steps + 1 then ⟨1, .stepLimit⟩
      else
        let o := runAgentLoop env rest res.2 (steps + 1) unsafeRetries
          invalidRetries
        ⟨o.requests + 1, o.outcome⟩
    else if er.invalid_format = true ∧
        invalidRetries < MAX_INVALID_FORMAT_RETRIES then
      let o := runAgentLoop env rest res.2 steps unsafeRetries
        (invalidRetries + 1)
      ⟨o.requests + 1, o.outcome⟩
    else if er.skipped_any = true ∧ unsafeRetries < 1 then
      let o := runAgentLoop env rest res.2 steps (unsafeRetries + 1)
        invalidRetries
      ⟨o.requests + 1, o.outcome⟩
    else ⟨1, .skipMessage⟩

/-- A malformed-fence model reply: the `​```json` hint substring is present
but no tool call parses (the fence is never closed). -/
def malformedAnswer : List Char := str "```json \x7b\"tool\":\"shell\",\"command\":"

/-- The ExecResult of the malformed-hint branch of
`maybe_execute_assistant_commands`. -/
def malformedHintResult : ExecResult :=
  { executed_any := false, had_blocks := true, skipped_any := true,
    invalid_format := true, had_failures := false,
    display_text := '\n' ::
      str "Detected malformed or incomplete tool_calls JSON. Skipped; ask model to retry with valid JSON tool_calls.\n",
    history_text := str "tool[shell.auto_exec] output:\n" ++
      str "Detected malformed or incomplete tool_calls JSON. Skipped; ask model to retry with valid JSON tool_calls.\n" }

/-- The display block `$ cmd\noutput\n` of one executed command. -/
def execBlockD (env : Env) (cmd : List Char) : List Char :=
  str "$ " ++ cmd ++ str "\n" ++ env.run cmd ++ str "\n"

/-- The history block `Executed: cmd\nOutput:\noutput\n` of one executed
command. -/
def execBlockH (env : Env) (cmd : List Char) : List Char :=
  str "Executed: " ++ cmd ++ str "\nOutput:\n" ++ env.run cmd ++ str "\n"

def execBlocksD (env : Env) (calls : List ToolCall) : List Char :=
  (calls.map (fun c => execBlockD env (trimStr c.command))).flatten

def execBlocksH (env : Env) (calls : List ToolCall) : List Char :=
  (calls.map (fun c => execBlockH env (trimStr c.command))).flatten

/-- Number of commands in `calls` whose output is heuristically a failure. -/
def failCount (env : Env) (calls : List ToolCall) : Nat :=
  calls.countP (fun c => looks_like_command_failure (env.run (trimStr c.command)))

/-- The notice appended when the per-reply command cap is hit. -/
def stopNotice : List Char :=
  str "Stopped auto exec after 8 commands to avoid noisy output.\n"

/-- A reply carrying 9 shell tool calls `c1`..`c9` in one ```json fence. -/
def nineCallAnswer : List Char :=
  str "```json\n[\x7b\"tool\":\"shell\",\"command\":\"c1\"\x7d,\x7b\"tool\":\"shell\",\"command\":\"c2\"\x7d,\x7b\"tool\":\"shell\",\"command\":\"c3\"\x7d,\x7b\"tool\":\"shell\",\"command\":\"c4\"\x7d,\x7b\"tool\":\"shell\",\"command\":\"c5\"\x7d,\x7b\"tool\":\"shell\",\"command\":\"c6\"\x7d,\x7b\"tool\":\"shell\",\"command\":\"c7\"\x7d,\x7b\"tool\":\"shell\",\"command\":\"c8\"\x7d,\x7b\"tool\":\"shell\",\"command\":\"c9\"\x7d]\n```"

/-- An environment whose every command prints `ok` (no failure markers). -/
def envOk : Env := ⟨fun _ => str "ok", fun _ => false, fun _ => []⟩

/-- An environment whose every command prints `Traceback` (a heuristic
failure marker). -/
def envTraceback : Env := ⟨fun _ => str "Traceback", fun _ => false, fun _ => []⟩

/-- `auto_exec_mode = All`, confirmation disabled, empty lists. -/
def cfgAllOff : Config := ⟨200, 24000, .All, [], [], false, []⟩

/-- A single well-formed ```json fence around payload `p`. -/
def mkFence (p : List Char) : List Char :=
  str "```json\n" ++ (p ++ str "\n```")

theorem matches_list_of_mem {list : List (List Char)} {cmd entry : List Char}
    (hmem : entry ∈ list) (hne : trimStr entry ≠ [])
    (hpre : (lowerStr (trimStr entry)).isPrefixOf (lowerStr cmd) = true) :
    matches_list list cmd = true := by
  unfold matches_list
  rw [List.any_eq_true]
  refine ⟨entry, hmem, ?_⟩
  simp only [Bool.and_eq_true, Bool.not_eq_true']
  constructor
  · rcases h : trimStr entry with _ | ⟨c, cs⟩
    · exact absurd h hne
    · simp [lowerStr]
  · exact hpre

/-- C3: for every command, mode and allow-list, a command whose lowercased
text starts with some non-empty trimmed, lowercased deny-list entry is
rejected by `is_command_allowed`, regardless of `auto_exec_mode` and of the
allow-list. -/
theorem deny_list_always_wins (cfg : Config) (cmd entry : List Char)
    (hmem : entry ∈ cfg.auto_exec_deny) (hne : trimStr entry ≠ [])
    (hpre : (lowerStr (trimStr entry)).isPrefixOf (lowerStr cmd) = true) :
    is_command_allowed cfg cmd = false := by
  unfold is_command_allowed
  rw [matches_list_of_mem hmem hne hpre]
  rfl

/-- C3 witness: `auto_exec_mode = All` with allow-list containing the command
verbatim, deny entry `" RM "` still rejects `rm -rf /`. -/
theorem deny_list_always_wins_witness :
    is_command_allowed
      { history_max_messages := 200, history_max_chars := 24000,
        auto_exec_mode := .All, auto_exec_allow := [str "rm -rf /"],
        auto_exec_deny := [str " RM "], auto_confirm_exec := false,
        auto_exec_trusted := [] } (str "rm -rf /") = false :=
  deny_list_always_wins _ (str "rm -rf /") (str " RM ")
    (by decide) (by decide) (by decide)

theorem maybe_compact_history_no_op (cfg : Config) (h : List ChatMessage)
    (hc : (h.length ≤ effMaxMessages cfg ∧ totalChars h ≤ effMaxChars cfg) ∨
      h.length < 8) :
    maybe_compact_history cfg h = h := by
  simp only [maybe_compact_history]
  unfold effMaxMessages effMaxChars at hc
  rcases hc with hc | hc
  · rw [if_pos hc]
  · by_cases h1 : h.length ≤ max cfg.history_max_messages 4 ∧
        totalChars h ≤ max cfg.history_max_chars 2000
    · rw [if_pos h1]
    · rw [if_neg h1, if_pos hc]

theorem maybe_compact_history_changed_shape (cfg : Config) (h : List ChatMessage)
    (h1 : ¬ (h.length ≤ effMaxMessages cfg ∧ totalChars h ≤ effMaxChars cfg))
    (h2 : ¬ h.length < 8) :
    maybe_compact_history cfg h =
      summaryMessage (h.take (h.length - compactTailKeep cfg h)) ::
        h.drop (h.length - compactTailKeep cfg h) := by
  simp only [maybe_compact_history]
  unfold effMaxMessages effMaxChars at h1
  unfold compactTailKeep effMaxMessages
  rw [if_neg h1, if_neg h2, if_neg ?_]
  have hmin := Nat.min_le_right ((cfg.history_max_messages ⊔ 4) / 2 ⊔ 6) (h.length - 1)
  omega

/-- C7: when compaction changes the history, the result is exactly one
synthesized assistant-role message whose content starts with the
`[session-summary]` marker, followed by the last `tail_keep` original
messages unchanged, with `tail_keep = max(max_messages/2, 6)` capped at
`length - 1`; and when both ceilings are respected, or the history is
shorter than 8 messages, the history is left unchanged. -/
theorem maybe_compact_history_spec (cfg : Config) (h : List ChatMessage) :
    (((h.length ≤ effMaxMessages cfg ∧ totalChars h ≤ effMaxChars cfg) ∨
        h.length < 8) → maybe_compact_history cfg h = h) ∧
    (maybe_compact_history cfg h ≠ h →
      maybe_compact_history cfg h =
        summaryMessage (h.take (h.length - compactTailKeep cfg h)) ::
          h.drop (h.length - compactTailKeep cfg h) ∧
      (summaryMessage (h.take (h.length - compactTailKeep cfg h))).role =
        str "assistant" ∧
      (str "[session-summary]").isPrefixOf
        (summaryMessage (h.take (h.length - compactTailKeep cfg h))).content =
        true) := by
  constructor
  · exact maybe_compact_history_no_op cfg h
  · intro hne
    by_cases h1 : h.length ≤ effMaxMessages cfg ∧ totalChars h ≤ effMaxChars cfg
    · exact absurd (maybe_compact_history_no_op cfg h (Or.inl h1)) hne
    · by_cases h2 : h.length < 8
      · exact absurd (maybe_compact_history_no_op cfg h (Or.inr h2)) hne
      · refine ⟨maybe_compact_history_changed_shape cfg h h1 h2, rfl, ?_⟩
        show (str "[session-summary]").isPrefixOf
          (str "[session-summary]\n" ++ summarize_history _) = true
        rw [List.isPrefixOf_iff_prefix]
        have : str "[session-summary]\n" =
            str "[session-summary]" ++ ['\n'] := rfl
        rw [this, List.append_assoc]
        exact List.prefix_append _ _

/-- C7 witness: with `history_max_messages = 4` a 9-message history (10 chars
each) is compacted to one summary plus the last 6 messages; an
8-message in-budget history is left unchanged. -/
theorem maybe_compact_history_spec_witness :
    maybe_compact_history
        { history_max_messages := 4, history_max_chars := 2000,
          auto_exec_mode := .Safe, auto_exec_allow := [], auto_exec_deny := [],
          auto_confirm_exec := true, auto_exec_trusted := [] }
        (List.replicate 9 (ChatMessage.mk (str "user") (str "hola amigos"))) =
      summaryMessage
          ((List.replicate 9 (ChatMessage.mk (str "user") (str "hola amigos"))).take 3) ::
        (List.replicate 9 (ChatMessage.mk (str "user") (str "hola amigos"))).drop 3 ∧
    maybe_compact_history
        { history_max_messages := 40, history_max_chars := 2000,
          auto_exec_mode := .Safe, auto_exec_allow := [], auto_exec_deny := [],
          auto_confirm_exec := true, auto_exec_trusted := [] }
        (List.replicate 8 (ChatMessage.mk (str "user") (str "hola amigos"))) =
      List.replicate 8 (ChatMessage.mk (str "user") (str "hola amigos")) :=
  ⟨((maybe_compact_history_spec _ _).2 (by decide)).1,
    (maybe_compact_history_spec _ _).1 (by decide)⟩

/-- C4 (amended): compaction is idempotent on a just-compacted history
provided the compacted history fits the character ceiling or has fewer than
8 messages (which always holds when the effective max-message ceiling is at
most 13). -/
theorem compaction_idempotent_within_budget (cfg : Config)
    (h : List ChatMessage)
    (hb : totalChars (maybe_compact_history cfg h) ≤ effMaxChars cfg ∨
      (maybe_compact_history cfg h).length < 8) :
    maybe_compact_history cfg (maybe_compact_history cfg h) =
      maybe_compact_history cfg h := by
  by_cases h1 : h.length ≤ effMaxMessages cfg ∧ totalChars h ≤ effMaxChars cfg
  · rw [maybe_compact_history_no_op cfg h (Or.inl h1)]
    exact maybe_compact_history_no_op cfg h (Or.inl h1)
  · by_cases h2 : h.length < 8
    · rw [maybe_compact_history_no_op cfg h (Or.inr h2)]
      exact maybe_compact_history_no_op cfg h (Or.inr h2)
    · have hsh := maybe_compact_history_changed_shape cfg h h1 h2
      have htk : compactTailKeep cfg h ≤ h.length - 1 := Nat.min_le_right _ _
      have hlen : (maybe_compact_history cfg h).length =
          1 + compactTailKeep cfg h := by
        rw [hsh]
        simp only [List.length_cons, List.length_drop]
        omega
      apply maybe_compact_history_no_op
      rcases hb with hb | hb
      · have hset : (maybe_compact_history cfg h).length ≤ effMaxMessages cfg ∨
            (maybe_compact_history cfg h).length < 8 := by
          rw [hlen]
          unfold compactTailKeep effMaxMessages
          omega
        rcases hset with hset | hset
        · exact Or.inl ⟨hset, hb⟩
        · exact Or.inr hset
      · exact Or.inr hb

/-- C4 witness: applying `compaction_idempotent_within_budget` to an actually
compacted 9-message history whose compacted form fits the budgets. -/
theorem compaction_idempotent_within_budget_witness :
    maybe_compact_history
        { history_max_messages := 4, history_max_chars := 2000,
          auto_exec_mode := .Safe, auto_exec_allow := [], auto_exec_deny := [],
          auto_confirm_exec := true, auto_exec_trusted := [] }
        (maybe_compact_history
          { history_max_messages := 4, history_max_chars := 2000,
            auto_exec_mode := .Safe, auto_exec_allow := [], auto_exec_deny := [],
            auto_confirm_exec := true, auto_exec_trusted := [] }
          (List.replicate 9 (ChatMessage.mk (str "user") (str "hola amigos")))) =
      maybe_compact_history
        { history_max_messages := 4, history_max_chars := 2000,
          auto_exec_mode := .Safe, auto_exec_allow := [], auto_exec_deny := [],
          auto_confirm_exec := true, auto_exec_trusted := [] }
        (List.replicate 9 (ChatMessage.mk (str "user") (str "hola amigos"))) :=
  compaction_idempotent_within_budget _ _ (by decide)

/-- C4 counterexample: with `history_max_messages = 14` and eight 260-char
messages, the first compaction keeps a 7-message tail that still exceeds the
2000-char ceiling, so a second run with the same ceilings compacts again
(re-summarizing the summary): `maybe_compact_history` is not idempotent on
the just-compacted history. -/
theorem compaction_not_idempotent_cx :
    maybe_compact_history
        { history_max_messages := 14, history_max_chars := 2000,
          auto_exec_mode := .Safe, auto_exec_allow := [], auto_exec_deny := [],
          auto_confirm_exec := true, auto_exec_trusted := [] }
        (List.replicate 8 (ChatMessage.mk (str "user") (List.replicate 260 'a'))) ≠
      List.replicate 8 (ChatMessage.mk (str "user") (List.replicate 260 'a')) ∧
    maybe_compact_history
        { history_max_messages := 14, history_max_chars := 2000,
          auto_exec_mode := .Safe, auto_exec_allow := [], auto_exec_deny := [],
          auto_confirm_exec := true, auto_exec_trusted := [] }
        (maybe_compact_history
          { history_max_messages := 14, history_max_chars := 2000,
            auto_exec_mode := .Safe, auto_exec_allow := [], auto_exec_deny := [],
            auto_confirm_exec := true, auto_exec_trusted := [] }
          (List.replicate 8 (ChatMessage.mk (str "user") (List.replicate 260 'a')))) ≠
      maybe_compact_history
        { history_max_messages := 14, history_max_chars := 2000,
          auto_exec_mode := .Safe, auto_exec_allow := [], auto_exec_deny := [],
          auto_confirm_exec := true, auto_exec_trusted := [] }
        (List.replicate 8 (ChatMessage.mk (str "user") (List.replicate 260 'a'))) :=
  by decide

theorem fmbAux_step_str_plain {c : Char} (hq : c ≠ '"') (hb : c ≠ '\\')
    (rest : List Char) (i d : Nat) :
    fmbAux (c :: rest) i d true false = fmbAux rest (i + 1) d true false := by
  simp [fmbAux, hq, hb]

theorem fmbAux_step_str_esc (c : Char) (rest : List Char) (i d : Nat) :
    fmbAux ('\\' :: c :: rest) i d true false =
      fmbAux rest (i + 1 + 1) d true false := by
  simp [fmbAux]

theorem fmbAux_step_str_close (rest : List Char) (i d : Nat) :
    fmbAux ('"' :: rest) i d true false = fmbAux rest (i + 1) d false false := by
  simp [fmbAux]

theorem fmbAux_step_quote_open (rest : List Char) (i d : Nat) :
    fmbAux ('"' :: rest) i d false false = fmbAux rest (i + 1) d true false := by
  simp [fmbAux]

theorem fmbAux_step_plain {c : Char} (hlb : c ≠ '{') (hrb : c ≠ '}')
    (hq : c ≠ '"') (rest : List Char) (i d : Nat) :
    fmbAux (c :: rest) i d false false = fmbAux rest (i + 1) d false false := by
  simp [fmbAux, hq, hlb, hrb]

theorem fmbAux_step_open (rest : List Char) (i d : Nat) :
    fmbAux ('{' :: rest) i d false false =
      fmbAux rest (i + 1) (d + 1) false false := by
  simp [fmbAux]

theorem fmbAux_step_close_deep {d : Nat} (hd : 2 ≤ d) (rest : List Char)
    (i : Nat) :
    fmbAux ('}' :: rest) i d false false =
      fmbAux rest (i + 1) (d - 1) false false := by
  have h0 : ¬ d = 0 := by omega
  have h1 : ¬ d = 1 := by omega
  simp [fmbAux, h0, h1]

theorem fmbAux_step_close_one (rest : List Char) (i : Nat) :
    fmbAux ('}' :: rest) i 1 false false = some i := by
  simp [fmbAux]

theorem fmbAux_strBody {b : List Char} (hb : StrBody b) :
    ∀ (rest : List Char) (i d : Nat),
      fmbAux (b ++ rest) i d true false =
        fmbAux rest (i + b.length) d true false := by
  induction hb with
  | nil => intro rest i d; simp
  | plain c s hq hbsl _ ih =>
    intro rest i d
    have harith : i + (c :: s).length = i + 1 + s.length := by
      simp only [List.length_cons]; omega
    rw [harith]
    show fmbAux (c :: (s ++ rest)) i d true false = _
    rw [fmbAux_step_str_plain hq hbsl, ih]
  | esc c s _ ih =>
    intro rest i d
    have harith : i + ('\\' :: c :: s).length = i + 1 + 1 + s.length := by
      simp only [List.length_cons]; omega
    rw [harith]
    show fmbAux ('\\' :: c :: (s ++ rest)) i d true false = _
    rw [fmbAux_step_str_esc, ih]

theorem fmbAux_balanced {t : List Char} (hb : Balanced t) :
    ∀ (rest : List Char) (i d : Nat), 1 ≤ d →
      fmbAux (t ++ rest) i d false false =
        fmbAux rest (i + t.length) d false false := by
  induction hb with
  | nil => intro rest i d _; simp
  | ch c s hlb hrb hq _ ih =>
    intro rest i d hd
    have harith : i + (c :: s).length = i + 1 + s.length := by
      simp only [List.length_cons]; omega
    rw [harith]
    show fmbAux (c :: (s ++ rest)) i d false false = _
    rw [fmbAux_step_plain hlb hrb hq, ih rest (i + 1) d hd]
  | strLit b s hsb _ ih =>
    intro rest i d hd
    have harith : i + ('"' :: (b ++ '"' :: s)).length =
        i + 1 + b.length + 1 + s.length := by
      simp only [List.length_cons, List.length_append]; omega
    rw [harith]
    show fmbAux ('"' :: ((b ++ '"' :: s) ++ rest)) i d false false = _
    rw [fmbAux_step_quote_open]
    have hassoc : (b ++ '"' :: s) ++ rest = b ++ ('"' :: (s ++ rest)) := by simp
    rw [hassoc, fmbAux_strBody hsb, fmbAux_step_str_close,
      ih rest (i + 1 + b.length + 1) d hd]
  | obj inner s _ _ ihInner ihS =>
    intro rest i d hd
    have harith : i + ('{' :: (inner ++ '}' :: s)).length =
        i + 1 + inner.length + 1 + s.length := by
      simp only [List.length_cons, List.length_append]; omega
    rw [harith]
    show fmbAux ('{' :: ((inner ++ '}' :: s) ++ rest)) i d false false = _
    rw [fmbAux_step_open]
    have hassoc : (inner ++ '}' :: s) ++ rest = inner ++ ('}' :: (s ++ rest)) := by
      simp
    rw [hassoc, ihInner ('}' :: (s ++ rest)) (i + 1) (d + 1) (by omega)]
    rw [fmbAux_step_close_deep (by omega), Nat.add_sub_cancel,
      ihS rest (i + 1 + inner.length + 1) d hd]

/-- Core of C5, shared with the fenced-payload analysis. -/
theorem find_matching_brace_balanced (pre body : List Char)
    (hb : Balanced body) :
    (∀ rest : List Char,
        find_matching_brace (pre ++ ('{' :: (body ++ '}' :: rest)))
            pre.length =
          some (pre.length + 1 + body.length)) ∧
    find_matching_brace (pre ++ ('{' :: body)) pre.length = none := by
  have hget : ∀ (tail : List Char),
      (pre ++ ('{' :: tail))[pre.length]? = some '{' := by
    intro tail
    rw [List.getElem?_append_right (Nat.le_refl _)]
    simp
  have hdrop : ∀ (tail : List Char),
      (pre ++ ('{' :: tail)).drop pre.length = '{' :: tail := by
    intro tail
    exact List.drop_left pre ('{' :: tail)
  constructor
  · intro rest
    unfold find_matching_brace
    rw [hget, if_pos rfl, hdrop, fmbAux_step_open,
      fmbAux_balanced hb ('}' :: rest) (pre.length + 1) 1 (Nat.le_refl 1),
      fmbAux_step_close_one]
  · unfold find_matching_brace
    rw [hget, if_pos rfl, hdrop, fmbAux_step_open]
    have hnil : body = body ++ ([] : List Char) := by simp
    conv_lhs => rw [hnil]
    rw [fmbAux_balanced hb [] (pre.length + 1) 1 (Nat.le_refl 1)]
    rfl

/-- C5: starting at the opening brace of `{` followed by brace-balanced
content (which may contain escaped quotes inside string literals, treated as
content, as in `{"command":"echo \"hi\""}`), `find_matching_brace` returns
exactly the index of the syntactically matching closing brace; with the
matching closing brace removed it returns `none`. -/
theorem find_matching_brace_spec (pre body : List Char) (hb : Balanced body) :
    (∀ rest : List Char,
        find_matching_brace (pre ++ ('{' :: (body ++ '}' :: rest)))
            pre.length =
          some (pre.length + 1 + body.length)) ∧
    find_matching_brace (pre ++ ('{' :: body)) pre.length = none :=
  find_matching_brace_balanced pre body hb

theorem strTailChk_cons (f : Nat) (c : Char) (rest : List Char) :
    strTailChk (f + 1) (c :: rest) =
      if c = '"' then some rest
      else if c = '\\' then
        match rest with
        | [] => none
        | _ :: rest2 => strTailChk f rest2
      else strTailChk f rest := rfl

theorem balItems_cons (f : Nat) (c : Char) (rest : List Char) :
    balItems (f + 1) (c :: rest) =
      if c = '}' then some (c :: rest)
      else if c = '"' then
        match strTailChk (rest.length + 1) rest with
        | some rest2 => balItems f rest2
        | none => none
      else if c = '{' then
        match balItems f rest with
        | some rest2 =>
          match rest2 with
          | c2 :: rest3 => if c2 = '}' then balItems f rest3 else none
          | [] => none
        | none => none
      else balItems f rest := rfl

theorem strTailChk_sound :
    ∀ (f : Nat) (s rest : List Char), strTailChk f s = some rest →
      ∃ b, s = b ++ '"' :: rest ∧ StrBody b := by
  intro f
  induction f with
  | zero => intro s rest h; exact absurd h (by simp [strTailChk])
  | succ f ih =>
    intro s rest h
    match s with
    | [] => exact absurd h (by simp [strTailChk])
    | c :: s' =>
      rw [strTailChk_cons] at h
      by_cases hq : c = '"'
      · rw [if_pos hq] at h
        exact ⟨[], by simp [hq, (Option.some_inj.mp h).symm], StrBody.nil⟩
      · rw [if_neg hq] at h
        by_cases hb : c = '\\'
        · rw [if_pos hb] at h
          match s' with
          | [] => exact absurd h (by simp)
          | c2 :: s2 =>
            obtain ⟨b, hb1, hb2⟩ := ih s2 rest h
            exact ⟨'\\' :: c2 :: b, by simp [hb, hb1], StrBody.esc c2 b hb2⟩
        · rw [if_neg hb] at h
          obtain ⟨b, hb1, hb2⟩ := ih s' rest h
          exact ⟨c :: b, by simp [hb1], StrBody.plain c b hq hb hb2⟩

theorem balItems_sound :
    ∀ (f : Nat) (s rest : List Char), balItems f s = some rest →
      ∃ t, s = t ++ rest ∧ Balanced t := by
  intro f
  induction f with
  | zero => intro s rest h; exact absurd h (by simp [balItems])
  | succ f ih =>
    intro s rest h
    match s with
    | [] =>
      rw [show balItems (f + 1) [] = some [] from rfl] at h
      exact ⟨[], by simp [(Option.some_inj.mp h).symm], Balanced.nil⟩
    | c :: s' =>
      rw [balItems_cons] at h
      by_cases hrb : c = '}'
      · rw [if_pos hrb] at h
        exact ⟨[], by simp [(Option.some_inj.mp h).symm], Balanced.nil⟩
      · rw [if_neg hrb] at h
        by_cases hq : c = '"'
        · rw [if_pos hq] at h
          match hs : strTailChk (s'.length + 1) s' with
          | none => rw [hs] at h; exact absurd h (by simp)
          | some rest2 =>
            rw [hs] at h
            obtain ⟨b, hb1, hb2⟩ := strTailChk_sound _ _ _ hs
            obtain ⟨t, ht1, ht2⟩ := ih rest2 rest h
            refine ⟨'"' :: (b ++ '"' :: t), ?_, Balanced.strLit b t hb2 ht2⟩
            simp [hq, hb1, ht1]
        · rw [if_neg hq] at h
          by_cases hlb : c = '{'
          · rw [if_pos hlb] at h
            match hs : balItems f s' with
            | none => rw [hs] at h; exact absurd h (by simp)
            | some rest2 =>
              rw [hs] at h
              match rest2 with
              | [] => exact absurd h (by simp)
              | c2 :: rest3 =>
                by_cases hc2 : c2 = '}'
                · change (if c2 = '}' then balItems f rest3 else none) =
                    some rest at h
                  rw [if_pos hc2] at h
                  subst hc2
                  obtain ⟨t1, ht11, ht12⟩ := ih s' ('}' :: rest3) hs
                  obtain ⟨t2, ht21, ht22⟩ := ih rest3 rest h
                  refine ⟨'{' :: (t1 ++ '}' :: t2), ?_,
                    Balanced.obj t1 t2 ht12 ht22⟩
                  simp [hlb, ht11, ht21]
                · change (if c2 = '}' then balItems f rest3 else none) =
                    some rest at h
                  rw [if_neg hc2] at h
                  exact absurd h (by simp)
          · rw [if_neg hlb] at h
            obtain ⟨t, ht1, ht2⟩ := ih s' rest h
            exact ⟨c :: t, by simp [ht1], Balanced.ch c t hlb hrb hq ht2⟩

theorem balancedChk_sound {s : List Char} (h : balancedChk s = true) :
    Balanced s := by
  unfold balancedChk at h
  have h2 : balItems (2 * s.length + 2) s = some [] := by
    revert h
    cases balItems (2 * s.length + 2) s <;> simp_all
  obtain ⟨t, ht1, ht2⟩ := balItems_sound _ _ _ h2
  rw [List.append_nil] at ht1
  rwa [ht1]

/-- C5 witness: on the spec's example `{"command":"echo \"hi\""}` the matcher
finds the final brace (index 24), and with the closing brace removed it
returns `none`. -/
theorem find_matching_brace_spec_witness :
    find_matching_brace
        ([] ++ ('{' :: (str "\"command\":\"echo \\\"hi\\\"\"" ++ '}' :: []))) 0 =
      some 24 ∧
    find_matching_brace ([] ++ ('{' :: str "\"command\":\"echo \\\"hi\\\"\"")) 0 =
      none := by
  have hb : Balanced (str "\"command\":\"echo \\\"hi\\\"\"") :=
    balancedChk_sound (by decide)
  have h := find_matching_brace_spec [] (str "\"command\":\"echo \\\"hi\\\"\"") hb
  exact ⟨by simpa using h.1 [], by simpa using h.2⟩

theorem infix_of_findSub_isSome {pat s : List Char}
    (h : (findSub pat s).isSome = true) : pat <:+: s := by
  induction s with
  | nil =>
    rw [findSub] at h
    by_cases hp : pat.isPrefixOf ([] : List Char)
    · exact (List.isPrefixOf_iff_prefix.mp hp).isInfix
    · rw [if_neg hp] at h
      exact absurd h (by simp)
  | cons c rest ih =>
    rw [findSub] at h
    by_cases hp : pat.isPrefixOf (c :: rest)
    · exact (List.isPrefixOf_iff_prefix.mp hp).isInfix
    · rw [if_neg hp, Option.isSome_map'] at h
      exact List.infix_cons_iff.mpr (Or.inr (ih h))

theorem findSub_isSome_of_infix {pat s : List Char} (h : pat <:+: s) :
    (findSub pat s).isSome = true := by
  induction s with
  | nil =>
    have hnil : pat = [] := List.infix_nil.mp h
    subst hnil
    rfl
  | cons c rest ih =>
    rw [findSub]
    by_cases hp : pat.isPrefixOf (c :: rest)
    · rw [if_pos hp]; rfl
    · rw [if_neg hp, Option.isSome_map']
      rcases List.infix_cons_iff.mp h with hpre | hinf
      · exact absurd (List.isPrefixOf_iff_prefix.mpr hpre) hp
      · exact ih hinf

theorem containsSub_false_not_infix {s pat : List Char}
    (h : containsSub s pat = false) : ¬ pat <:+: s := fun hinf => by
  rw [containsSub, findSub_isSome_of_infix hinf] at h
  exact absurd h (by simp)

theorem IsInfix.lowerStr {pat s : List Char} (h : pat <:+: s) :
    Dongshan.lowerStr pat <:+: Dongshan.lowerStr s := by
  rcases h with ⟨u, w, hw⟩
  exact ⟨u.map Char.toLower, w.map Char.toLower, by
    rw [← hw]; simp [Dongshan.lowerStr]⟩

theorem containsSub_mono {u s pat : List Char} (hsub : u <:+: s)
    (h : containsSub u pat = true) : containsSub s pat = true := by
  have hinf : pat <:+: u := by
    rw [containsSub] at h
    exact infix_of_findSub_isSome h
  exact findSub_isSome_of_infix (hinf.trans hsub)

theorem slice_within (s : List Char) (a b : Nat) :
    (s.take b).drop a <:+: s :=
  (List.drop_suffix a (s.take b)).isInfix.trans
    (List.take_prefix b s).isInfix

theorem collect_mem (fuel : Nat) :
    (∀ (v : Json) (out : List ToolCall) (c : ToolCall),
        c ∈ collectVFuel fuel v out →
        c ∈ out ∨ (trimStr c.tool ≠ [] ∧ trimStr c.command ≠ [])) ∧
    (∀ (items : JsonList) (out : List ToolCall) (c : ToolCall),
        c ∈ collectLFuel fuel items out →
        c ∈ out ∨ (trimStr c.tool ≠ [] ∧ trimStr c.command ≠ [])) := by
  induction fuel with
  | zero =>
    exact ⟨fun v out c hc => Or.inl hc, fun items out c hc => Or.inl hc⟩
  | succ f ih =>
    constructor
    · intro v out c hc
      match v with
      | .null => exact Or.inl hc
      | .bool b => exact Or.inl hc
      | .num raw => exact Or.inl hc
      | .str s => exact Or.inl hc
      | .arr items => exact ih.2 items out c hc
      | .obj fields =>
        have hred : collectVFuel (f + 1) (.obj fields) out =
            match jsonLookup fields (str "tool_calls") with
            | some calls => collectVFuel f calls out
            | none =>
              if trimStr (toolFieldOf fields) ≠ [] ∧
                  trimStr (commandFieldOf fields) ≠ [] then
                out ++ [⟨toolFieldOf fields, commandFieldOf fields⟩]
              else out := rfl
        rw [hred] at hc
        cases hlk : jsonLookup fields (str "tool_calls") with
        | some calls => rw [hlk] at hc; exact ih.1 calls out c hc
        | none =>
          rw [hlk] at hc
          by_cases hcond : trimStr (toolFieldOf fields) ≠ [] ∧
              trimStr (commandFieldOf fields) ≠ []
          · rw [if_pos hcond] at hc
            rcases List.mem_append.mp hc with hin | hin
            · exact Or.inl hin
            · rcases List.mem_singleton.mp hin with rfl
              exact Or.inr hcond
          · rw [if_neg hcond] at hc
            exact Or.inl hc
    · intro items out c hc
      match items with
      | .nil => exact Or.inl hc
      | .cons v tl =>
        have hc2 : c ∈ collectLFuel f tl (collectVFuel f v out) := hc
        rcases ih.2 tl _ c hc2 with hin | hp
        · rcases ih.1 v out c hin with hin2 | hp2
          · exact Or.inl hin2
          · exact Or.inr hp2
        · exact Or.inr hp

theorem collectFenceFuel_mem (text opn cls : List Char) (sk : Bool) :
    ∀ (fuel i : Nat) (out : List ToolCall) (c : ToolCall),
      c ∈ collectFenceFuel text opn cls sk fuel i out →
      c ∈ out ∨ (trimStr c.tool ≠ [] ∧ trimStr c.command ≠ []) := by
  intro fuel
  induction fuel with
  | zero => intro i out c hc; exact Or.inl hc
  | succ f ih =>
    intro i out c hc
    by_cases h0 : i < text.length
    · simp only [collectFenceFuel, h0, if_true] at hc
      cases hfs : findSub opn (text.drop i) with
      | none => rw [hfs] at hc; exact Or.inl hc
      | some pos =>
        simp only [hfs] at hc
        split at hc
        · exact ih _ _ _ hc
        · split at hc
          · exact Or.inl hc
          · split at hc
            · exact Or.inl hc
            · rcases ih _ _ _ hc with hin | hp
              · split at hin
                · split at hin
                  · rcases (collect_mem _).1 _ _ _ hin with h | h
                    · exact Or.inl h
                    · exact Or.inr h
                  · exact Or.inl hin
                · exact Or.inl hin
              · exact Or.inr hp
    · rw [collectFenceFuel, if_neg h0] at hc
      exact Or.inl hc

theorem collectInlineFuel_mem (text : List Char) :
    ∀ (fuel i : Nat) (out : List ToolCall) (c : ToolCall),
      c ∈ collectInlineFuel text fuel i out →
      c ∈ out ∨ (trimStr c.tool ≠ [] ∧ trimStr c.command ≠ []) := by
  intro fuel
  induction fuel with
  | zero => intro i out c hc; exact Or.inl hc
  | succ f ih =>
    intro i out c hc
    by_cases h0 : i < text.length
    · simp only [collectInlineFuel, h0, if_true] at hc
      split at hc
      · split at hc
        · split at hc
          · split at hc
            · rcases ih _ _ _ hc with hin | hp
              · rcases (collect_mem _).1 _ _ _ hin with h | h
                · exact Or.inl h
                · exact Or.inr h
              · exact Or.inr hp
            · exact ih _ _ _ hc
          · exact ih _ _ _ hc
        · exact ih _ _ _ hc
      · exact ih _ _ _ hc
    · rw [collectInlineFuel, if_neg h0] at hc
      exact Or.inl hc

/-- C9: every ToolCall extracted from any text has a tool and a command that
are both non-empty after trimming (candidates lacking either are dropped by
the value walker and never emitted). -/
theorem extract_tool_calls_nonempty_invariant (text : List Char)
    (c : ToolCall) (hc : c ∈ extract_tool_calls text) :
    trimStr c.tool ≠ [] ∧ trimStr c.command ≠ [] := by
  unfold extract_tool_calls at hc
  rcases collectInlineFuel_mem text _ _ _ c hc with hin | hp
  · rcases collectFenceFuel_mem text _ _ _ _ _ _ c hin with hin2 | hp
    · rcases collectFenceFuel_mem text _ _ _ _ _ _ c hin2 with hin3 | hp
      · exact absurd hin3 (List.not_mem_nil c)
      · exact hp
    · exact hp
  · exact hp

/-- C9 witness: the canonical fenced `tool_calls` reply extracts the
`shell`/`ls` call, and the invariant holds for it. -/
theorem extract_tool_calls_nonempty_invariant_witness :
    ToolCall.mk (str "shell") (str "ls") ∈
      extract_tool_calls
        (str "```json\n\x7b\"tool_calls\":[\x7b\"tool\":\"shell\",\"command\":\"ls\"\x7d]\x7d\n```") ∧
    trimStr (str "shell") ≠ [] ∧ trimStr (str "ls") ≠ [] :=
  ⟨by decide,
    extract_tool_calls_nonempty_invariant
      (str "```json\n\x7b\"tool_calls\":[\x7b\"tool\":\"shell\",\"command\":\"ls\"\x7d]\x7d\n```")
      (ToolCall.mk (str "shell") (str "ls")) (by decide)⟩

theorem findSub_none_of_lower {t pat : List Char}
    (hlow : lowerStr pat = pat)
    (h : containsSub (lowerStr t) pat = false) : findSub pat t = none := by
  cases hfs : findSub pat t with
  | none => rfl
  | some i =>
    have hinf : pat <:+: t :=
      infix_of_findSub_isSome (by rw [hfs]; rfl)
    have hinf2 : pat <:+: Dongshan.lowerStr t := by
      have := IsInfix.lowerStr hinf
      rwa [hlow] at this
    rw [containsSub, findSub_isSome_of_infix hinf2] at h
    exact absurd h (by simp)

theorem collectFenceFuel_top_none {text opn cls : List Char} {sk : Bool}
    {out : List ToolCall} (hn : findSub opn text = none) :
    collectFenceFuel text opn cls sk (text.length + 1) 0 out = out := by
  by_cases h0 : 0 < text.length
  · simp only [collectFenceFuel, h0, if_true, List.drop_zero, hn]
  · rw [collectFenceFuel, if_neg h0]

theorem collectInlineFuel_no_lit {text : List Char}
    (hlit : containsSub text (str "\"tool_calls\"") = false) :
    ∀ (fuel i : Nat) (out : List ToolCall),
      collectInlineFuel text fuel i out = out := by
  intro fuel
  induction fuel with
  | zero => intro i out; rfl
  | succ f ih =>
    intro i out
    by_cases h0 : i < text.length
    · simp only [collectInlineFuel, h0, if_true]
      by_cases hb : text[i]? = some '{'
      · rw [if_pos hb]
        cases hfm : find_matching_brace text i with
        | none => exact ih _ _
        | some e =>
          have hcand : containsSub ((text.take (e + 1)).drop i)
              (str "\"tool_calls\"") = false := by
            cases hcc : containsSub ((text.take (e + 1)).drop i)
                (str "\"tool_calls\"") with
            | false => rfl
            | true =>
              have := containsSub_mono (slice_within text i (e + 1)) hcc
              rw [hlit] at this
              exact absurd this (by simp)
          simp only [hcand, Bool.false_eq_true, if_false]
          exact ih _ _
      · rw [if_neg hb]
        exact ih _ _
    · rw [collectInlineFuel, if_neg h0]

/-- C8: a reply with no recognizable tool-call marker — no legacy shell
fence and none of the hint substrings (`tool_calls`, `"tool"`, ```` ```json ````,
```` ``json ````) — extracts no tool calls, and the execution pass returns
`had_blocks = false`, `invalid_format = false`, `executed_any = false`,
`skipped_any = false` with empty texts and an unchanged config. -/
theorem no_marker_empty_result (env : Env) (cfg : Config) (answer : List Char)
    (hleg : contains_legacy_shell_block answer = false)
    (hhint : contains_tool_call_hint answer = false) :
    extract_tool_calls answer = [] ∧
    maybe_execute_assistant_commands env cfg answer =
      ({ executed_any := false, had_blocks := false, skipped_any := false,
         invalid_format := false, had_failures := false,
         display_text := [], history_text := [] }, cfg) := by
  have hh : containsSub (lowerStr answer) (str "tool_calls") = false ∧
      containsSub (lowerStr answer) (str "```json") = false ∧
      containsSub (lowerStr answer) (str "``json") = false := by
    revert hhint
    unfold contains_tool_call_hint
    simp only [Bool.or_eq_false_iff]
    exact fun h => ⟨h.1.1.1, h.1.2, h.2⟩
  have hlit : containsSub answer (str "\"tool_calls\"") = false := by
    cases hcc : containsSub answer (str "\"tool_calls\"") with
    | false => rfl
    | true =>
      have h1 : str "tool_calls" <:+: str "\"tool_calls\"" :=
        ⟨['"'], ['"'], by decide⟩
      have h2 : str "\"tool_calls\"" <:+: answer :=
        infix_of_findSub_isSome (by rw [containsSub] at hcc; exact hcc)
      have h3 : Dongshan.lowerStr (str "tool_calls") <:+:
          Dongshan.lowerStr answer := IsInfix.lowerStr (h1.trans h2)
      rw [show Dongshan.lowerStr (str "tool_calls") = str "tool_calls"
        from by decide] at h3
      have := findSub_isSome_of_infix h3
      rw [containsSub] at hh
      rw [hh.1] at this
      exact absurd this (by simp)
  have hf1 : findSub (str "```json") answer = none :=
    findSub_none_of_lower (by decide) hh.2.1
  have hf2 : findSub (str "``json") answer = none :=
    findSub_none_of_lower (by decide) hh.2.2
  have hext : extract_tool_calls answer = [] := by
    simp only [extract_tool_calls]
    rw [collectFenceFuel_top_none hf1, collectFenceFuel_top_none hf2,
      collectInlineFuel_no_lit hlit]
  refine ⟨hext, ?_⟩
  unfold maybe_execute_assistant_commands
  simp [hext, hleg, hhint]

/-- C8 witness: a plain prose reply produces the empty, markerless result. -/
theorem no_marker_empty_result_witness :
    extract_tool_calls (str "All done. The refactor is complete.") = [] ∧
    maybe_execute_assistant_commands
        ⟨fun _ => [], fun _ => false, fun _ => []⟩
        ⟨200, 24000, .Safe, [], [], true, []⟩
        (str "All done. The refactor is complete.") =
      ({ executed_any := false, had_blocks := false, skipped_any := false,
         invalid_format := false, had_failures := false,
         display_text := [], history_text := [] },
        ⟨200, 24000, .Safe, [], [], true, []⟩) :=
  no_marker_empty_result _ _ _ (by decide) (by decide)

theorem execCommandsLoop_nonshell (env : Env) :
    ∀ (calls : List ToolCall) (st : ExecState),
      (∀ c ∈ calls, lowerStr c.tool ≠ str "shell") →
      execCommandsLoop env calls st = st := by
  intro calls
  induction calls with
  | nil => intro st _; rfl
  | cons c rest ih =>
    intro st hall
    have hc : lowerStr c.tool ≠ str "shell" :=
      hall c (List.mem_cons_self c rest)
    rw [execCommandsLoop, if_pos hc]
    exact ih st (fun c' h' => hall c' (List.mem_cons_of_mem c h'))

/-- C10: when a reply's extracted tool calls all name tools other than
`shell` (case-insensitively), the execution pass counts nothing as executed
or skipped (`had_blocks = true`, all other flags false, texts bare), and the
agent loop terminates the turn at once with the skip message — one model
request, without consuming the unsafe-skip retry (`unsafeRetries` may still
be 0). -/
theorem nonshell_calls_skip_message (env : Env) (cfg : Config)
    (answer : List Char)
    (hne : extract_tool_calls answer ≠ [])
    (hall : ∀ c ∈ extract_tool_calls answer, lowerStr c.tool ≠ str "shell") :
    maybe_execute_assistant_commands env cfg answer =
      ({ executed_any := false, had_blocks := true, skipped_any := false,
         invalid_format := false, had_failures := false,
         display_text := ['\n'],
         history_text := str "tool[shell.auto_exec] output:\n" }, cfg) ∧
    (∀ (rest : List (List Char)) (steps unsafeRetries invalidRetries : Nat),
        runAgentLoop env (answer :: rest) cfg steps unsafeRetries
          invalidRetries = ⟨1, .skipMessage⟩) := by
  have hexec : maybe_execute_assistant_commands env cfg answer =
      ({ executed_any := false, had_blocks := true, skipped_any := false,
         invalid_format := false, had_failures := false,
         display_text := ['\n'],
         history_text := str "tool[shell.auto_exec] output:\n" }, cfg) := by
    unfold maybe_execute_assistant_commands
    rw [if_neg hne, execCommandsLoop_nonshell env _ _ hall]
    simp [str]
  refine ⟨hexec, ?_⟩
  intro rest steps unsafeRetries invalidRetries
  rw [runAgentLoop]
  simp [hexec]

/-- C10 witness: a fenced `tool_calls` payload whose only tool is `browse`. -/
theorem nonshell_calls_skip_message_witness :
    maybe_execute_assistant_commands
        ⟨fun _ => str "ok", fun _ => false, fun _ => []⟩
        ⟨200, 24000, .All, [], [], false, []⟩
        (str "```json\n\x7b\"tool_calls\":[\x7b\"tool\":\"browse\",\"command\":\"open docs\"\x7d]\x7d\n```") =
      ({ executed_any := false, had_blocks := true, skipped_any := false,
         invalid_format := false, had_failures := false,
         display_text := ['\n'],
         history_text := str "tool[shell.auto_exec] output:\n" },
        ⟨200, 24000, .All, [], [], false, []⟩) ∧
    runAgentLoop ⟨fun _ => str "ok", fun _ => false, fun _ => []⟩
        [str "```json\n\x7b\"tool_calls\":[\x7b\"tool\":\"browse\",\"command\":\"open docs\"\x7d]\x7d\n```"]
        ⟨200, 24000, .All, [], [], false, []⟩ 0 0 0 = ⟨1, .skipMessage⟩ :=
  ⟨(nonshell_calls_skip_message _ _ _ (by decide) (by decide)).1,
    (nonshell_calls_skip_message _ _ _ (by decide) (by decide)).2 [] 0 0 0⟩

theorem exec_malformed (env : Env) (cfg : Config) :
    maybe_execute_assistant_commands env cfg malformedAnswer =
      (malformedHintResult, cfg) := rfl

theorem runAgentLoop_malformed_step {env : Env} {cfg : Config}
    {rest : List (List Char)} {steps u i : Nat}
    (hi : i < MAX_INVALID_FORMAT_RETRIES) :
    runAgentLoop env (malformedAnswer :: rest) cfg steps u i =
      ⟨(runAgentLoop env rest cfg steps u (i + 1)).requests + 1,
        (runAgentLoop env rest cfg steps u (i + 1)).outcome⟩ := by
  rw [runAgentLoop]
  simp [exec_malformed, malformedHintResult, hi]

theorem runAgentLoop_malformed_unsafe {env : Env} {cfg : Config}
    {rest : List (List Char)} {steps u i : Nat}
    (hi : ¬ i < MAX_INVALID_FORMAT_RETRIES) (hu : u < 1) :
    runAgentLoop env (malformedAnswer :: rest) cfg steps u i =
      ⟨(runAgentLoop env rest cfg steps (u + 1) i).requests + 1,
        (runAgentLoop env rest cfg steps (u + 1) i).outcome⟩ := by
  rw [runAgentLoop]
  simp [exec_malformed, malformedHintResult, hi, hu]

theorem runAgentLoop_malformed_done {env : Env} {cfg : Config}
    {rest : List (List Char)} {steps u i : Nat}
    (hi : ¬ i < MAX_INVALID_FORMAT_RETRIES) (hu : ¬ u < 1) :
    runAgentLoop env (malformedAnswer :: rest) cfg steps u i =
      ⟨1, .skipMessage⟩ := by
  rw [runAgentLoop]
  simp [exec_malformed, malformedHintResult, hi, hu]

/-- C1 (amended): with `MAX_INVALID_FORMAT_RETRIES = 2`, after the 2nd
corrective retry is exhausted a 3rd consecutive malformed reply does not end
the turn — the malformed result also sets `skipped_any`, so the loop spends
its single unsafe-skip retry and issues one more model request; the turn
terminates with the skip message only after the 4th consecutive malformed
reply, for 4 model requests in total, regardless of any further scripted
replies. -/
theorem malformed_retries_then_skip (env : Env) (cfg : Config)
    (rest : List (List Char)) :
    runAgentLoop env
        (malformedAnswer :: malformedAnswer :: malformedAnswer ::
          malformedAnswer :: rest) cfg 0 0 0 = ⟨4, .skipMessage⟩ := by
  rw [runAgentLoop_malformed_step (by decide),
    runAgentLoop_malformed_step (by decide),
    runAgentLoop_malformed_unsafe (by decide) (by decide),
    runAgentLoop_malformed_done (by decide) (by decide)]

/-- C1 counterexample: with exactly 3 consecutive malformed replies the loop
consumes all three and is still requesting (`pending`) — it does not
terminate with the skip message after the 2nd corrective retry is
exhausted; a 3rd retry request (the unsafe-skip retry) is sent instead. -/
theorem malformed_three_replies_cx :
    runAgentLoop ⟨fun _ => str "ok", fun _ => false, fun _ => []⟩
        [malformedAnswer, malformedAnswer, malformedAnswer]
        ⟨200, 24000, .Safe, [], [], true, []⟩ 0 0 0 = ⟨3, .pending⟩ ∧
    TurnEnd.pending ≠ TurnEnd.skipMessage := by decide

theorem execCommandsLoop_all_pass (env : Env) :
    ∀ (goodCalls : List ToolCall) (restCalls : List ToolCall) (st : ExecState),
      (∀ c ∈ goodCalls,
        lowerStr c.tool = str "shell" ∧ trimStr c.command ≠ [] ∧
        precheck_command env (trimStr c.command) = none ∧
        is_command_allowed st.cfg (trimStr c.command) = true) →
      st.cfg.auto_confirm_exec = false →
      st.seenCount + goodCalls.length ≤ MAX_COMMANDS_PER_RESPONSE →
      st.failedCount + failCount env goodCalls ≤ 1 →
      execCommandsLoop env (goodCalls ++ restCalls) st =
        execCommandsLoop env restCalls
          { st with
            display := st.display ++ execBlocksD env goodCalls,
            history := st.history ++ execBlocksH env goodCalls,
            executedCount := st.executedCount + goodCalls.length,
            seenCount := st.seenCount + goodCalls.length,
            failedCount := st.failedCount + failCount env goodCalls } := by
  intro goodCalls
  induction goodCalls with
  | nil =>
    intro restCalls st _ _ _ _
    simp [execBlocksD, execBlocksH, failCount]
  | cons c goodRest ih =>
    intro restCalls st hall hconf hseen hfail
    obtain ⟨htool, hcmd, hpre, hallow⟩ := hall c (List.mem_cons_self c goodRest)
    have hrest := fun c' h' => hall c' (List.mem_cons_of_mem c h')
    have hseenlt : ¬ MAX_COMMANDS_PER_RESPONSE ≤ st.seenCount := by
      simp only [List.length_cons] at hseen
      omega
    have hfc : failCount env (c :: goodRest) =
        (if looks_like_command_failure (env.run (trimStr c.command)) then 1
          else 0) + failCount env goodRest := by
      simp only [failCount, List.countP_cons]
      split <;> omega
    show execCommandsLoop env (c :: (goodRest ++ restCalls)) st = _
    rw [execCommandsLoop]
    rw [if_neg (not_not_intro htool)]
    simp only [hcmd, if_false, hpre, hallow, hconf]
    rw [if_neg hseenlt]
    simp only [Bool.true_eq_false, Bool.false_eq_true, false_and, if_false,
      ite_false]
    cases hfl : looks_like_command_failure (env.run (trimStr c.command)) with
    | true =>
      rw [hfl] at hfc
      simp only [hfc, if_true] at hfail ⊢
      have hnostop : ¬ MAX_FAILED_COMMANDS_PER_RESPONSE ≤ st.failedCount + 1 := by
        unfold MAX_FAILED_COMMANDS_PER_RESPONSE
        omega
      simp only [hfl, if_true, if_neg hnostop]
      refine Eq.trans (ih restCalls _ hrest hconf ?_ ?_) ?_
      · show st.seenCount + 1 + goodRest.length ≤ MAX_COMMANDS_PER_RESPONSE
        simp only [List.length_cons] at hseen
        omega
      · show st.failedCount + 1 + failCount env goodRest ≤ 1
        omega
      · refine congrArg (execCommandsLoop env restCalls) ?_
        simp only [ExecState.mk.injEq]
        refine ⟨?_, ?_, ?_, trivial, ?_, ?_, trivial⟩
        · simp [execBlocksD, execBlockD, List.append_assoc]
        · simp [execBlocksH, execBlockH, List.append_assoc]
        · simp only [List.length_cons]; omega
        · simp only [List.length_cons]; omega
        · omega
    | false =>
      rw [hfl] at hfc
      simp only [hfc, if_false] at hfail ⊢
      simp only [hfl, Bool.false_eq_true, if_false]
      refine Eq.trans (ih restCalls _ hrest hconf ?_ ?_) ?_
      · show st.seenCount + 1 + goodRest.length ≤ MAX_COMMANDS_PER_RESPONSE
        simp only [List.length_cons] at hseen
        omega
      · show st.failedCount + failCount env goodRest ≤ 1
        omega
      · refine congrArg (execCommandsLoop env restCalls) ?_
        simp only [ExecState.mk.injEq]
        refine ⟨?_, ?_, ?_, trivial, ?_, ?_, trivial⟩
        · simp [execBlocksD, execBlockD, List.append_assoc]
        · simp [execBlocksH, execBlockH, List.append_assoc]
        · simp only [List.length_cons]; omega
        · simp only [List.length_cons]; omega
        · omega

/-- C6 (amended): one execution pass over a reply whose extraction yields 9
shell tool calls with non-empty commands, all passing precheck and policy,
with confirmation disabled, and with at most one heuristic failure among the
first 8 outputs: exactly the first 8 commands are executed and exactly one
"stopped after 8 commands" notice is appended to both the display and the
history text in place of the remainder. -/
theorem nine_calls_execute_first_eight (env : Env) (cfg : Config)
    (answer : List Char) (c1 c2 c3 c4 c5 c6 c7 c8 c9 : ToolCall)
    (hext : extract_tool_calls answer = [c1, c2, c3, c4, c5, c6, c7, c8, c9])
    (hall : ∀ c ∈ [c1, c2, c3, c4, c5, c6, c7, c8, c9],
        lowerStr c.tool = str "shell" ∧ trimStr c.command ≠ [] ∧
        precheck_command env (trimStr c.command) = none ∧
        is_command_allowed cfg (trimStr c.command) = true)
    (hconf : cfg.auto_confirm_exec = false)
    (hfail : failCount env [c1, c2, c3, c4, c5, c6, c7, c8] ≤ 1) :
    maybe_execute_assistant_commands env cfg answer =
      ({ executed_any := true, had_blocks := true, skipped_any := false,
         invalid_format := false,
         had_failures :=
           decide (0 < failCount env [c1, c2, c3, c4, c5, c6, c7, c8]),
         display_text := '\n' ::
           (execBlocksD env [c1, c2, c3, c4, c5, c6, c7, c8] ++ stopNotice),
         history_text := str "tool[shell.auto_exec] output:\n" ++
           (execBlocksH env [c1, c2, c3, c4, c5, c6, c7, c8] ++ stopNotice) },
        cfg) := by
  have hlist : [c1, c2, c3, c4, c5, c6, c7, c8, c9] =
      [c1, c2, c3, c4, c5, c6, c7, c8] ++ [c9] := rfl
  have h9 := hall c9 (by simp)
  have hstep := execCommandsLoop_all_pass env [c1, c2, c3, c4, c5, c6, c7, c8]
    [c9] ⟨[], [], 0, 0, 0, 0, cfg⟩
    (fun c h => hall c (by rw [hlist]; exact List.mem_append_left _ h))
    hconf (by simp [MAX_COMMANDS_PER_RESPONSE]) (by simpa using hfail)
  unfold maybe_execute_assistant_commands
  rw [hext, if_neg (by simp), hlist, hstep]
  rw [execCommandsLoop, if_neg (not_not_intro h9.1)]
  simp only [h9.2.1, if_false]
  rw [if_pos (by simp [MAX_COMMANDS_PER_RESPONSE] :
    MAX_COMMANDS_PER_RESPONSE ≤
      ((⟨[], [], 0, 0, 0, 0, cfg⟩ : ExecState).seenCount +
        [c1, c2, c3, c4, c5, c6, c7, c8].length : Nat))]
  simp [stopNotice, List.append_assoc]

/-- C6 witness: the 9-call reply under `envOk` executes `c1`..`c8` and
appends one stop notice. -/
theorem nine_calls_execute_first_eight_witness :
    maybe_execute_assistant_commands envOk cfgAllOff nineCallAnswer =
      ({ executed_any := true, had_blocks := true, skipped_any := false,
         invalid_format := false,
         had_failures := decide (0 < failCount envOk
           [⟨str "shell", str "c1"⟩, ⟨str "shell", str "c2"⟩,
            ⟨str "shell", str "c3"⟩, ⟨str "shell", str "c4"⟩,
            ⟨str "shell", str "c5"⟩, ⟨str "shell", str "c6"⟩,
            ⟨str "shell", str "c7"⟩, ⟨str "shell", str "c8"⟩]),
         display_text := '\n' ::
           (execBlocksD envOk
             [⟨str "shell", str "c1"⟩, ⟨str "shell", str "c2"⟩,
              ⟨str "shell", str "c3"⟩, ⟨str "shell", str "c4"⟩,
              ⟨str "shell", str "c5"⟩, ⟨str "shell", str "c6"⟩,
              ⟨str "shell", str "c7"⟩, ⟨str "shell", str "c8"⟩] ++ stopNotice),
         history_text := str "tool[shell.auto_exec] output:\n" ++
           (execBlocksH envOk
             [⟨str "shell", str "c1"⟩, ⟨str "shell", str "c2"⟩,
              ⟨str "shell", str "c3"⟩, ⟨str "shell", str "c4"⟩,
              ⟨str "shell", str "c5"⟩, ⟨str "shell", str "c6"⟩,
              ⟨str "shell", str "c7"⟩, ⟨str "shell", str "c8"⟩] ++ stopNotice) },
        cfgAllOff) :=
  nine_calls_execute_first_eight envOk cfgAllOff nineCallAnswer
    ⟨str "shell", str "c1"⟩ ⟨str "shell", str "c2"⟩ ⟨str "shell", str "c3"⟩
    ⟨str "shell", str "c4"⟩ ⟨str "shell", str "c5"⟩ ⟨str "shell", str "c6"⟩
    ⟨str "shell", str "c7"⟩ ⟨str "shell", str "c8"⟩ ⟨str "shell", str "c9"⟩
    (by decide) (by decide) (by decide) (by decide)

/-- C6 counterexample: the same 9-call reply, all calls passing precheck and
policy with confirmation disabled, but under an environment whose outputs
are heuristic failures: only `c1` and `c2` execute (the failure budget stops
the pass) and no "stopped after 8 commands" notice is appended — the claim
without a failure-budget hypothesis is false. -/
theorem nine_calls_two_failures_cx :
    (extract_tool_calls nineCallAnswer).length = 9 ∧
    (∀ c ∈ extract_tool_calls nineCallAnswer,
      lowerStr c.tool = str "shell" ∧ trimStr c.command ≠ [] ∧
      precheck_command envTraceback (trimStr c.command) = none ∧
      is_command_allowed cfgAllOff (trimStr c.command) = true) ∧
    cfgAllOff.auto_confirm_exec = false ∧
    (maybe_execute_assistant_commands envTraceback cfgAllOff
        nineCallAnswer).1.display_text =
      str "\n$ c1\nTraceback\n$ c2\nTraceback\nStopped auto exec after 2 failed commands.\n" ∧
    containsSub (maybe_execute_assistant_commands envTraceback cfgAllOff
        nineCallAnswer).1.display_text
      (str "Stopped auto exec after 8 commands") = false ∧
    containsSub (maybe_execute_assistant_commands envTraceback cfgAllOff
        nineCallAnswer).1.display_text (str "$ c3") = false := by
  decide

theorem sizeJson_pos (v : Json) : 1 ≤ sizeJson v := by
  cases v <;> simp [sizeJson]

theorem sizeJsonList_pos (items : JsonList) : 1 ≤ sizeJsonList items := by
  cases items <;> simp [sizeJsonList]

theorem jsonLookup_size : ∀ {fields : JsonFields} {key : List Char}
    {v : Json}, jsonLookup fields key = some v →
    sizeJson v ≤ sizeJsonFields fields
  | .nil, _, _, h => absurd h (by simp [jsonLookup])
  | .cons k v' tl, key, v, h => by
    rw [jsonLookup] at h
    cases hlk : jsonLookup tl key with
    | some v2 =>
      rw [hlk] at h
      cases Option.some_inj.mp h
      have := jsonLookup_size hlk
      simp only [sizeJsonFields]
      omega
    | none =>
      rw [hlk] at h
      by_cases hk : k = key
      · rw [if_pos hk] at h
        cases Option.some_inj.mp h
        simp only [sizeJsonFields]
        omega
      · rw [if_neg hk] at h
        exact absurd h (by simp)

theorem collect_fuel_irrel (m : Nat) :
    (∀ (v : Json), sizeJson v ≤ m → ∀ (out : List ToolCall) (f g : Nat),
      sizeJson v ≤ f → sizeJson v ≤ g →
      collectVFuel f v out = collectVFuel g v out) ∧
    (∀ (items : JsonList), sizeJsonList items ≤ m →
      ∀ (out : List ToolCall) (f g : Nat),
      sizeJsonList items ≤ f → sizeJsonList items ≤ g →
      collectLFuel f items out = collectLFuel g items out) := by
  induction m with
  | zero =>
    constructor
    · intro v hv
      exact absurd hv (by have := sizeJson_pos v; omega)
    · intro items hi
      exact absurd hi (by have := sizeJsonList_pos items; omega)
  | succ m ih =>
    constructor
    · intro v hv out f g hf hg
      have h1 : 1 ≤ sizeJson v := sizeJson_pos v
      obtain ⟨f', rfl⟩ : ∃ f', f = f' + 1 := ⟨f - 1, by omega⟩
      obtain ⟨g', rfl⟩ : ∃ g', g = g' + 1 := ⟨g - 1, by omega⟩
      match v with
      | .null => rfl
      | .bool b => rfl
      | .num raw => rfl
      | .str s => rfl
      | .arr items =>
        show collectLFuel f' items out = collectLFuel g' items out
        simp only [sizeJson] at hv hf hg
        exact ih.2 items (by omega) out f' g' (by omega) (by omega)
      | .obj fields =>
        have e1 : ∀ (n : Nat), collectVFuel (n + 1) (.obj fields) out =
            match jsonLookup fields (str "tool_calls") with
            | some calls => collectVFuel n calls out
            | none =>
              if trimStr (toolFieldOf fields) ≠ [] ∧
                  trimStr (commandFieldOf fields) ≠ [] then
                out ++ [⟨toolFieldOf fields, commandFieldOf fields⟩]
              else out := fun n => rfl
        rw [e1 f', e1 g']
        cases hlk : jsonLookup fields (str "tool_calls") with
        | some calls =>
          have hsz := jsonLookup_size hlk
          simp only [sizeJson] at hv hf hg
          exact ih.1 calls (by omega) out f' g' (by omega) (by omega)
        | none => rfl
    · intro items hi out f g hf hg
      have h1 : 1 ≤ sizeJsonList items := sizeJsonList_pos items
      obtain ⟨f', rfl⟩ : ∃ f', f = f' + 1 := ⟨f - 1, by omega⟩
      obtain ⟨g', rfl⟩ : ∃ g', g = g' + 1 := ⟨g - 1, by omega⟩
      match items with
      | .nil => rfl
      | .cons v tl =>
        show collectLFuel f' tl (collectVFuel f' v out) =
          collectLFuel g' tl (collectVFuel g' v out)
        simp only [sizeJsonList] at hi hf hg
        rw [ih.1 v (by omega) out f' g' (by omega) (by omega)]
        exact ih.2 tl (by omega) _ f' g' (by omega) (by omega)

theorem collect_append (fuel : Nat) :
    (∀ (v : Json) (out : List ToolCall),
      collectVFuel fuel v out = out ++ collectVFuel fuel v []) ∧
    (∀ (items : JsonList) (out : List ToolCall),
      collectLFuel fuel items out = out ++ collectLFuel fuel items []) := by
  induction fuel with
  | zero =>
    constructor
    · intro v out; simp [collectVFuel]
    · intro items out; simp [collectLFuel]
  | succ f ih =>
    constructor
    · intro v out
      match v with
      | .null => simp [collectVFuel]
      | .bool b => simp [collectVFuel]
      | .num raw => simp [collectVFuel]
      | .str s => simp [collectVFuel]
      | .arr items =>
        show collectLFuel f items out = out ++ collectLFuel f items []
        exact ih.2 items out
      | .obj fields =>
        have e1 : ∀ (o : List ToolCall), collectVFuel (f + 1) (.obj fields) o =
            match jsonLookup fields (str "tool_calls") with
            | some calls => collectVFuel f calls o
            | none =>
              if trimStr (toolFieldOf fields) ≠ [] ∧
                  trimStr (commandFieldOf fields) ≠ [] then
                o ++ [⟨toolFieldOf fields, commandFieldOf fields⟩]
              else o := fun o => rfl
        rw [e1 out, e1 []]
        cases jsonLookup fields (str "tool_calls") with
        | some calls => exact ih.1 calls out
        | none =>
          by_cases hcond : trimStr (toolFieldOf fields) ≠ [] ∧
              trimStr (commandFieldOf fields) ≠ []
          · simp [hcond]
          · simp [hcond]
    · intro items out
      match items with
      | .nil => simp [collectLFuel]
      | .cons v tl =>
        show collectLFuel f tl (collectVFuel f v out) =
          out ++ collectLFuel f tl (collectVFuel f v [])
        rw [ih.2 tl (collectVFuel f v out), ih.1 v out,
          ih.2 tl (collectVFuel f v []), List.append_assoc]

theorem flatten_spec (m : Nat) :
    (∀ (v : Json), sizeJson v ≤ m →
      FlattensTo v (collect_tool_calls_from_value v []) ∧
      ∀ l, FlattensTo v l → collect_tool_calls_from_value v [] = l) ∧
    (∀ (items : JsonList), sizeJsonList items ≤ m →
      FlattensToL items (collectLFuel (sizeJsonList items) items []) ∧
      ∀ l, FlattensToL items l →
        collectLFuel (sizeJsonList items) items [] = l) := by
  induction m with
  | zero =>
    constructor
    · intro v hv
      exact absurd hv (by have := sizeJson_pos v; omega)
    · intro items hi
      exact absurd hi (by have := sizeJsonList_pos items; omega)
  | succ m ih =>
    constructor
    · intro v hv
      match v with
      | .null =>
        exact ⟨FlattensTo.null, fun l h => by cases h; rfl⟩
      | .bool b =>
        exact ⟨FlattensTo.bool b, fun l h => by cases h; rfl⟩
      | .num raw =>
        exact ⟨FlattensTo.num raw, fun l h => by cases h; rfl⟩
      | .str s =>
        exact ⟨FlattensTo.strv s, fun l h => by cases h; rfl⟩
      | .arr items =>
        have e1 : collect_tool_calls_from_value (.arr items) [] =
            collectLFuel (sizeJsonList items) items [] := rfl
        simp only [sizeJson] at hv
        have hlist := ih.2 items (by omega)
        refine ⟨e1 ▸ FlattensTo.arr items _ hlist.1, fun l h => ?_⟩
        cases h with
        | arr _ _ hl => exact e1 ▸ hlist.2 l hl
      | .obj fields =>
        simp only [sizeJson] at hv
        have e1 : collect_tool_calls_from_value (.obj fields) [] =
            match jsonLookup fields (str "tool_calls") with
            | some calls => collectVFuel (sizeJsonFields fields) calls []
            | none =>
              if trimStr (toolFieldOf fields) ≠ [] ∧
                  trimStr (commandFieldOf fields) ≠ [] then
                ([] : List ToolCall) ++
                  [⟨toolFieldOf fields, commandFieldOf fields⟩]
              else [] := rfl
        cases hlk : jsonLookup fields (str "tool_calls") with
        | some calls =>
          have hsz := jsonLookup_size hlk
          have e2 : collect_tool_calls_from_value (.obj fields) [] =
              collect_tool_calls_from_value calls [] := by
            rw [e1, hlk]
            exact (collect_fuel_irrel (sizeJson calls)).1 calls (Nat.le_refl _)
              [] (sizeJsonFields fields) (sizeJson calls) (by omega)
              (Nat.le_refl _)
          have hv2 := ih.1 calls (by omega)
          refine ⟨e2 ▸ FlattensTo.objCalls fields calls _ hlk hv2.1,
            fun l h => ?_⟩
          cases h with
          | objCalls _ calls2 _ hlk2 hfl2 =>
            rw [hlk] at hlk2
            cases Option.some_inj.mp hlk2
            exact e2 ▸ hv2.2 l hfl2
          | objPair _ hlk2 _ _ => rw [hlk] at hlk2; cases hlk2
          | objDrop _ hlk2 _ => rw [hlk] at hlk2; cases hlk2
        | none =>
          by_cases hcond : trimStr (toolFieldOf fields) ≠ [] ∧
              trimStr (commandFieldOf fields) ≠ []
          · have e2 : collect_tool_calls_from_value (.obj fields) [] =
                [⟨toolFieldOf fields, commandFieldOf fields⟩] := by
              rw [e1, hlk, if_pos hcond]
              rfl
            refine ⟨e2 ▸ FlattensTo.objPair fields hlk hcond.1 hcond.2,
              fun l h => ?_⟩
            cases h with
            | objCalls _ calls2 _ hlk2 _ => rw [hlk] at hlk2; cases hlk2
            | objPair _ _ _ _ => exact e2
            | objDrop _ _ hdrop =>
              rcases hdrop with hd | hd
              · exact absurd hd hcond.1
              · exact absurd hd hcond.2
          · have e2 : collect_tool_calls_from_value (.obj fields) [] = [] := by
              rw [e1, hlk, if_neg hcond]
            have hdrop : trimStr (toolFieldOf fields) = [] ∨
                trimStr (commandFieldOf fields) = [] := by
              by_contra hno
              push_neg at hno
              exact hcond ⟨hno.1, hno.2⟩
            refine ⟨by rw [e2]; exact FlattensTo.objDrop fields hlk hdrop,
              fun l h => ?_⟩
            cases h with
            | objCalls _ calls2 _ hlk2 _ => rw [hlk] at hlk2; cases hlk2
            | objPair _ _ ht hc =>
              rcases hdrop with hd | hd
              · exact absurd hd ht
              · exact absurd hd hc
            | objDrop _ _ _ => exact e2
    · intro items hi
      match items with
      | .nil =>
        exact ⟨FlattensToL.nil, fun l h => by cases h; rfl⟩
      | .cons v tl =>
        simp only [sizeJsonList] at hi
        have e1 : collectLFuel (sizeJsonList (.cons v tl)) (.cons v tl) [] =
            collectLFuel (sizeJson v + sizeJsonList tl) tl
              (collectVFuel (sizeJson v + sizeJsonList tl) v []) := rfl
        have e2 : collectVFuel (sizeJson v + sizeJsonList tl) v [] =
            collect_tool_calls_from_value v [] :=
          (collect_fuel_irrel (sizeJson v)).1 v (Nat.le_refl _) []
            _ _ (by omega) (Nat.le_refl _)
        have e3 : collectLFuel (sizeJson v + sizeJsonList tl) tl
              (collect_tool_calls_from_value v []) =
            collect_tool_calls_from_value v [] ++
              collectLFuel (sizeJsonList tl) tl [] := by
          rw [(collect_append _).2 tl _,
            (collect_fuel_irrel (sizeJsonList tl)).2 tl (Nat.le_refl _) []
              _ _ (by omega) (Nat.le_refl _)]
        have e4 : collectLFuel (sizeJsonList (.cons v tl)) (.cons v tl) [] =
            collect_tool_calls_from_value v [] ++
              collectLFuel (sizeJsonList tl) tl [] := by
          rw [e1, e2, e3]
        have hv2 := ih.1 v (by omega)
        have ht2 := ih.2 tl (by omega)
        refine ⟨e4 ▸ FlattensToL.cons v tl _ _ hv2.1 ht2.1, fun l h => ?_⟩
        cases h with
        | cons _ _ l1 l2 h1 h2 =>
          rw [e4, hv2.2 l1 h1, ht2.2 l2 h2]

/-- The spec's recursive flatten is total: the walker's output flattens its
input value. -/
theorem flatten_total (v : Json) :
    FlattensTo v (collect_tool_calls_from_value v []) :=
  ((flatten_spec (sizeJson v)).1 v (Nat.le_refl _)).1

/-- The walker computes exactly the spec's flatten relation. -/
theorem flatten_unique (v : Json) (l : List ToolCall)
    (h : FlattensTo v l) : collect_tool_calls_from_value v [] = l :=
  ((flatten_spec (sizeJson v)).1 v (Nat.le_refl _)).2 l h

theorem isJsonWs_eq_isWsChar (c : Char) : isJsonWs c = isWsChar c := by
  by_cases h1 : c = ' ' <;> by_cases h2 : c = '\t' <;>
    by_cases h3 : c = '\n' <;> by_cases h4 : c = '\r' <;>
    simp [isJsonWs, isWsChar, Char.isWhitespace, h1, h2, h3, h4]

theorem findSub_of_prefix {pat s : List Char} (h : pat.isPrefixOf s = true) :
    findSub pat s = some 0 := by
  cases s with
  | nil => rw [findSub, if_pos h]
  | cons c rest => rw [findSub, if_pos h]

theorem findSub_append_head_notin (p0 : Char) (pr : List Char)
    {s : List Char} (r : List Char) (h : ∀ c ∈ s, c ≠ p0) :
    findSub (p0 :: pr) (s ++ r) =
      (findSub (p0 :: pr) r).map (· + s.length) := by
  induction s with
  | nil =>
    simp only [List.nil_append, List.length_nil]
    cases findSub (p0 :: pr) r <;> simp
  | cons c s' ih =>
    have hc : ¬ p0 = c :=
      fun he => (h c (List.mem_cons_self c s')) he.symm
    have hpre : ¬ (p0 :: pr).isPrefixOf (c :: (s' ++ r)) = true := by
      rw [List.isPrefixOf_iff_prefix]
      exact fun hp => hc (List.cons_prefix_cons.mp hp).1
    rw [List.cons_append, findSub, if_neg hpre,
      ih (fun c' h' => h c' (List.mem_cons_of_mem c h'))]
    cases findSub (p0 :: pr) r with
    | none => rfl
    | some a =>
      simp only [Option.map_some', List.length_cons, Option.some.injEq]
      omega

theorem dropWhile_length_le (p : Char → Bool) (l : List Char) :
    (l.dropWhile p).length ≤ l.length :=
  (List.dropWhile_sublist p).length_le

theorem trimRight_length_le (s : List Char) :
    (trimRight s).length ≤ s.length := by
  simp only [trimRight, List.length_reverse]
  calc (s.reverse.dropWhile isWsChar).length
      ≤ s.reverse.length := dropWhile_length_le _ _
    _ = s.length := List.length_reverse s

theorem trimRight_append_ws {c : Char} (hc : isWsChar c = true)
    (s : List Char) : trimRight (s ++ [c]) = trimRight s := by
  simp [trimRight, List.reverse_append, List.dropWhile_cons, hc]

theorem trimStr_append_ws {c : Char} (hc : isWsChar c = true)
    (s : List Char) : trimStr (s ++ [c]) = trimStr s := by
  unfold trimStr
  rw [List.dropWhile_append]
  by_cases he : (s.dropWhile isWsChar).isEmpty
  · rw [if_pos he]
    have h0 : s.dropWhile isWsChar = [] := by
      simpa [List.isEmpty_iff] using he
    rw [h0]
    simp [List.dropWhile_cons, hc, trimRight]
  · rw [if_neg he, trimRight_append_ws hc]

theorem trimStr_head_not_ws {p : List Char} (hp : trimStr p = p)
    {c : Char} {rest : List Char} (hceq : p = c :: rest) :
    isWsChar c = false := by
  cases hw : isWsChar c with
  | false => rfl
  | true =>
    exfalso
    have hlen1 : (trimStr p).length ≤ rest.length := by
      rw [hceq]
      unfold trimStr
      rw [List.dropWhile_cons, if_pos hw]
      calc (trimRight (rest.dropWhile isWsChar)).length
          ≤ (rest.dropWhile isWsChar).length := trimRight_length_le _
        _ ≤ rest.length := dropWhile_length_le _ _
    rw [hp, hceq] at hlen1
    simp at hlen1

theorem mkFence_length (p : List Char) :
    (mkFence p).length = p.length + 12 := by
  have h1 : (str "```json\n").length = 8 := rfl
  have h2 : (str "\n```").length = 4 := rfl
  simp only [mkFence, List.length_append, h1, h2]
  omega

theorem collectFence_end {text opn cls : List Char} {sk : Bool}
    {fuel i : Nat} {out : List ToolCall} (h : text.length ≤ i) :
    collectFenceFuel text opn cls sk fuel i out = out := by
  cases fuel with
  | zero => rfl
  | succ f => rw [collectFenceFuel, if_neg (Nat.not_lt.mpr h)]

theorem collectFence_json_mkFence {p : List Char} {v : Json}
    (htrim : trimStr p = p) (hne : p ≠ [])
    (hbt : ∀ c ∈ p, c ≠ '`') (hparse : parseJson p = some v)
    (fuel : Nat) (out : List ToolCall) :
    collectFenceFuel (mkFence p) (str "```json") (str "```") false
      (fuel + 1) 0 out = collect_tool_calls_from_value v out := by
  obtain ⟨c0, prest, hpd⟩ : ∃ c0 prest, p = c0 :: prest := by
    cases p with
    | nil => exact absurd rfl hne
    | cons a b => exact ⟨a, b, rfl⟩
  have hp1 : 1 ≤ p.length := by rw [hpd]; simp
  have hws0 : isWsChar c0 = false := trimStr_head_not_ws htrim hpd
  have hlen := mkFence_length p
  have h0 : 0 < (mkFence p).length := by omega
  have hpre : (str "```json").isPrefixOf (mkFence p) = true := by
    rw [List.isPrefixOf_iff_prefix,
      show mkFence p = str "```json" ++ ('\n' :: (p ++ str "\n```")) from rfl]
    exact List.prefix_append _ _
  have hfs : findSub (str "```json") (mkFence p) = some 0 :=
    findSub_of_prefix hpre
  have hskip : skipWsFrom (mkFence p) ((str "```json").length) = 8 := by
    unfold skipWsFrom
    rw [show (str "```json").length = 7 from rfl,
      show (mkFence p).drop 7 = '\n' :: (p ++ str "\n```") from rfl,
      List.takeWhile_cons, if_pos (show isJsonWs '\n' = true from rfl),
      hpd, List.cons_append, List.takeWhile_cons,
      if_neg (show ¬ isJsonWs c0 = true from by
        rw [isJsonWs_eq_isWsChar, hws0]; simp)]
    rfl
  have hn8 : ¬ ((mkFence p).length ≤ 8) := by omega
  have hdrop8 : (mkFence p).drop 8 = p ++ str "\n```" := rfl
  have hassoc1 : p ++ str "\n```" = (p ++ ['\n']) ++ str "```" := by
    rw [show str "\n```" = '\n' :: str "```" from rfl]
    simp
  have hnotick : ∀ c ∈ p ++ ['\n'], c ≠ '`' := by
    intro c hc
    rcases List.mem_append.mp hc with hin | hin
    · exact hbt c hin
    · rw [List.mem_singleton.mp hin]; decide
  have hcls : findSub (str "```") (p ++ str "\n```") = some (p.length + 1) := by
    rw [hassoc1, show (str "```") = '`' :: str "``" from rfl,
      findSub_append_head_notin '`' (str "``") ('`' :: str "``") hnotick,
      findSub_of_prefix (show ('`' :: str "``").isPrefixOf ('`' :: str "``")
        = true from rfl)]
    simp
  have htake : (p ++ str "\n```").take (p.length + 1) = p ++ ['\n'] := by
    rw [hassoc1, show p.length + 1 = (p ++ ['\n']).length from by simp,
      List.take_left]
  have hblock : trimStr ((p ++ str "\n```").take (p.length + 1)) = p := by
    rw [htake, trimStr_append_ws (show isWsChar '\n' = true from rfl), htrim]
  rw [collectFenceFuel, if_pos h0, List.drop_zero]
  simp only [hfs, Bool.false_eq_true, false_and, if_false, Nat.zero_add]
  rw [hskip, if_neg hn8, hdrop8]
  simp only [hcls, hblock]
  rw [if_pos hne]
  simp only [hparse]
  have hc3 : (str "```").length = 3 := rfl
  rw [collectFence_end (by omega : (mkFence p).length ≤ 8 + (p.length + 1) +
    (str "```").length)]

theorem collectFence_ddjson_mkFence {p : List Char}
    (hbt : ∀ c ∈ p, c ≠ '`') (fuel : Nat) (out : List ToolCall) :
    collectFenceFuel (mkFence p) (str "``json") (str "``") true
      (fuel + 2) 0 out = out := by
  have hlen := mkFence_length p
  have h0 : 0 < (mkFence p).length := by omega
  have hfs : findSub (str "``json") (mkFence p) = some 1 := by
    rw [show mkFence p = '`' :: (str "``json\n" ++ (p ++ str "\n```")) from rfl,
      findSub,
      if_neg (show ¬ ((str "``json").isPrefixOf
        ('`' :: (str "``json\n" ++ (p ++ str "\n```")))) = true from by
        rw [show ((str "``json").isPrefixOf
          ('`' :: (str "``json\n" ++ (p ++ str "\n```")))) = false from rfl]
        simp),
      findSub_of_prefix (show (str "``json").isPrefixOf
        (str "``json\n" ++ (p ++ str "\n```")) = true from rfl)]
    rfl
  have h6 : (str "``json").length = 6 := rfl
  have hnotick2 : ∀ c ∈ '\n' :: (p ++ ['\n']), c ≠ '`' := by
    intro c hc
    rcases List.mem_cons.mp hc with hin | hin
    · rw [hin]; decide
    · rcases List.mem_append.mp hin with hin2 | hin2
      · exact hbt c hin2
      · rw [List.mem_singleton.mp hin2]; decide
  have hfs2 : findSub (str "``json") ('\n' :: (p ++ str "\n```")) = none := by
    rw [show '\n' :: (p ++ str "\n```") =
        ('\n' :: (p ++ ['\n'])) ++ str "```" from by
      rw [show str "\n```" = '\n' :: str "```" from rfl]
      simp,
      show (str "``json") = '`' :: str "`json" from rfl,
      findSub_append_head_notin '`' (str "`json") (str "```") hnotick2,
      show findSub ('`' :: str "`json") (str "```") = none from by decide]
    rfl
  rw [show fuel + 2 = (fuel + 1) + 1 from rfl, collectFenceFuel, if_pos h0,
    List.drop_zero]
  simp only [hfs]
  rw [if_pos (show True ∧ 0 < 0 + 1 ∧
    (mkFence p)[0 + 1 - 1]? = some '`' from ⟨trivial, by omega, rfl⟩)]
  rw [show 0 + 1 + (str "``json").length = 7 from rfl]
  rw [collectFenceFuel, if_pos (by omega : 7 < (mkFence p).length),
    show (mkFence p).drop 7 = '\n' :: (p ++ str "\n```") from rfl, hfs2]

theorem collectInline_end {text : List Char} {fuel i : Nat}
    {out : List ToolCall} (h : text.length ≤ i) :
    collectInlineFuel text fuel i out = out := by
  cases fuel with
  | zero => rfl
  | succ f => rw [collectInlineFuel, if_neg (Nat.not_lt.mpr h)]

theorem collectInline_advance {text : List Char} :
    ∀ (k fuel i : Nat) (out : List ToolCall),
      i + k ≤ text.length →
      (∀ j, j < k → text[i + j]? ≠ some '{') →
      collectInlineFuel text (fuel + k) i out =
        collectInlineFuel text fuel (i + k) out := by
  intro k
  induction k with
  | zero => intro fuel i out _ _; rfl
  | succ n ih =>
    intro fuel i out hle hno
    have hni : ¬ (text[i]? = some '{') := by
      have := hno 0 (by omega)
      rw [Nat.add_zero] at this
      exact this
    rw [show fuel + (n + 1) = (fuel + n) + 1 from by omega, collectInlineFuel,
      if_pos (by omega : i < text.length), if_neg hni]
    have h2 : ∀ j, j < n → text[(i + 1) + j]? ≠ some '{' := by
      intro j hj
      have := hno (j + 1) (by omega)
      rw [show i + (j + 1) = (i + 1) + j from by omega] at this
      exact this
    rw [ih fuel (i + 1) out (by omega) h2,
      show (i + 1) + n = i + (n + 1) from by omega]

theorem collectInline_mkFence_obj {body : List Char} {v : Json}
    (hb : Balanced body)
    (hlit : containsSub ('{' :: (body ++ ['}'])) (str "\"tool_calls\"") = true)
    (hparse : parseJson ('{' :: (body ++ ['}'])) = some v)
    (fuel : Nat) (out : List ToolCall) :
    collectInlineFuel (mkFence ('{' :: (body ++ ['}']))) (fuel + 13) 0 out =
      collect_tool_calls_from_value v out := by
  have hp2 : ('{' :: (body ++ ['}'])).length = body.length + 2 := by
    simp
  have hlen : (mkFence ('{' :: (body ++ ['}']))).length = body.length + 14 := by
    rw [mkFence_length, hp2]
  have hsplit : mkFence ('{' :: (body ++ ['}'])) =
      (str "```json\n" ++ ('{' :: (body ++ ['}']))) ++ str "\n```" := by
    simp [mkFence]
  have h8len : (str "```json\n").length = 8 := rfl
  have hleft : (str "```json\n" ++ ('{' :: (body ++ ['}']))).length =
      body.length + 10 := by
    rw [List.length_append, h8len, hp2]
    omega
  have hno8 : ∀ j, j < 8 →
      (mkFence ('{' :: (body ++ ['}'])))[0 + j]? ≠ some '{' := by
    intro j hj
    rw [Nat.zero_add, hsplit, List.getElem?_append_left (by rw [hleft]; omega),
      List.getElem?_append_left (by rw [h8len]; omega)]
    interval_cases j <;> decide
  have hfmb : find_matching_brace (mkFence ('{' :: (body ++ ['}']))) 8 =
      some (8 + 1 + body.length) := by
    have h := (find_matching_brace_balanced (str "```json\n") body hb).1
      (str "\n```")
    rw [show (str "```json\n").length = 8 from rfl] at h
    rw [show mkFence ('{' :: (body ++ ['}'])) =
      str "```json\n" ++ ('{' :: (body ++ '}' :: str "\n```")) from by
      simp [mkFence]]
    exact h
  have hcand : ((mkFence ('{' :: (body ++ ['}']))).take
      (8 + 1 + body.length + 1)).drop 8 = '{' :: (body ++ ['}']) := by
    rw [hsplit,
      show 8 + 1 + body.length + 1 =
        (str "```json\n" ++ ('{' :: (body ++ ['}']))).length from by
      rw [hleft]
      omega,
      List.take_left]
    rfl
  have hno4 : ∀ j, j < 4 →
      (mkFence ('{' :: (body ++ ['}'])))[(8 + 1 + body.length + 1) + j]? ≠
        some '{' := by
    intro j hj
    rw [hsplit, List.getElem?_append_right (by rw [hleft]; omega),
      show 8 + 1 + body.length + 1 + j -
        (str "```json\n" ++ ('{' :: (body ++ ['}']))).length = j from by
      rw [hleft]
      omega]
    interval_cases j <;> decide
  have hlt1 : 8 < (str "```json\n" ++ ('{' :: (body ++ ['}']))).length := by
    rw [hleft]
    omega
  have hle2 : (str "```json\n").length ≤ 8 := by
    rw [h8len]
  have h8 : (mkFence ('{' :: (body ++ ['}'])))[8]? = some '{' := by
    rw [hsplit, List.getElem?_append_left hlt1,
      List.getElem?_append_right hle2, h8len]
    simp
  rw [show fuel + 13 = ((fuel + 4) + 1) + 8 from by omega,
    collectInline_advance 8 ((fuel + 4) + 1) 0 out (by omega) hno8,
    show (0 : Nat) + 8 = 8 from rfl,
    collectInlineFuel, if_pos (by omega : 8 <
      (mkFence ('{' :: (body ++ ['}']))).length),
    if_pos h8]
  simp only [hfmb]
  rw [hcand, hlit, if_pos rfl]
  simp only [hparse]
  rw [collectInline_advance 4 fuel (8 + 1 + body.length + 1) _ (by omega) hno4,
    collectInline_end (by omega)]

/-- C2 (amended): for a reply that is one well-formed ```json fenced payload
(the payload backtick-free, trimmed, parseable), extraction is governed by the
flatten relation of the spec: (1,2) `collect_tool_calls_from_value` computes
exactly the spec's recursive flatten of the payload — in source order,
dropping exactly the candidate objects whose tool-name or command field is
empty after trimming (not only empty-command ones); (3) when the payload does
not contain the literal text `"tool_calls"`, the fenced pass alone fires and
`extract_tool_calls` returns the flattened list exactly once; but (4) when the
payload is a JSON object that does contain the literal `"tool_calls"`, the
inline-JSON pass re-collects the same payload and the flattened list is
returned twice — each pair appears twice, not exactly once. -/
theorem extract_tool_calls_fenced_payload :
    (∀ v : Json, FlattensTo v (collect_tool_calls_from_value v [])) ∧
    (∀ (v : Json) (l : List ToolCall), FlattensTo v l →
      collect_tool_calls_from_value v [] = l) ∧
    (∀ (p : List Char) (v : Json),
      trimStr p = p → p ≠ [] → (∀ c ∈ p, c ≠ '`') →
      parseJson p = some v →
      containsSub (mkFence p) (str "\"tool_calls\"") = false →
      extract_tool_calls (mkFence p) = collect_tool_calls_from_value v []) ∧
    (∀ (body : List Char) (v : Json),
      Balanced body →
      trimStr ('{' :: (body ++ ['}'])) = '{' :: (body ++ ['}']) →
      (∀ c ∈ '{' :: (body ++ ['}']), c ≠ '`') →
      parseJson ('{' :: (body ++ ['}'])) = some v →
      containsSub ('{' :: (body ++ ['}'])) (str "\"tool_calls\"") = true →
      extract_tool_calls (mkFence ('{' :: (body ++ ['}']))) =
        collect_tool_calls_from_value v [] ++
          collect_tool_calls_from_value v []) := by
  refine ⟨flatten_total, flatten_unique, ?_, ?_⟩
  · intro p v htrim hne hbt hparse hnolit
    have h1 : collectFenceFuel (mkFence p) (str "```json") (str "```") false
        ((mkFence p).length + 1) 0 [] = collect_tool_calls_from_value v [] :=
      collectFence_json_mkFence htrim hne hbt hparse _ _
    have h2 : collectFenceFuel (mkFence p) (str "``json") (str "``") true
        ((mkFence p).length + 1) 0 (collect_tool_calls_from_value v []) =
        collect_tool_calls_from_value v [] := by
      rw [show (mkFence p).length + 1 = (p.length + 11) + 2 from by
        rw [mkFence_length]]
      exact collectFence_ddjson_mkFence hbt _ _
    have h3 : collectInlineFuel (mkFence p) ((mkFence p).length + 1) 0
        (collect_tool_calls_from_value v []) =
        collect_tool_calls_from_value v [] :=
      collectInlineFuel_no_lit hnolit _ _ _
    simp only [extract_tool_calls]
    rw [h1, h2, h3]
  · intro body v hb htrim hbt hparse hlit
    have hne : ('{' :: (body ++ ['}'])) ≠ [] := by simp
    have hL : (mkFence ('{' :: (body ++ ['}']))).length = body.length + 14 := by
      rw [mkFence_length,
        show ('{' :: (body ++ ['}'])).length = body.length + 2 from by simp]
    have h1 : collectFenceFuel (mkFence ('{' :: (body ++ ['}'])))
        (str "```json") (str "```") false
        ((mkFence ('{' :: (body ++ ['}']))).length + 1) 0 [] =
        collect_tool_calls_from_value v [] :=
      collectFence_json_mkFence htrim hne hbt hparse _ _
    have h2 : collectFenceFuel (mkFence ('{' :: (body ++ ['}'])))
        (str "``json") (str "``") true
        ((mkFence ('{' :: (body ++ ['}']))).length + 1) 0
        (collect_tool_calls_from_value v []) =
        collect_tool_calls_from_value v [] := by
      rw [show (mkFence ('{' :: (body ++ ['}']))).length + 1 =
        (body.length + 13) + 2 from by rw [hL]]
      exact collectFence_ddjson_mkFence hbt _ _
    have h3 : collectInlineFuel (mkFence ('{' :: (body ++ ['}'])))
        ((mkFence ('{' :: (body ++ ['}']))).length + 1) 0
        (collect_tool_calls_from_value v []) =
        collect_tool_calls_from_value v
          (collect_tool_calls_from_value v []) := by
      rw [show (mkFence ('{' :: (body ++ ['}']))).length + 1 =
        (body.length + 2) + 13 from by rw [hL]]
      exact collectInline_mkFence_obj hb hlit hparse _ _
    simp only [extract_tool_calls]
    rw [h1, h2, h3]
    unfold collect_tool_calls_from_value
    exact (collect_append (sizeJson v)).1 v _

/-- Witness for C2: the canonical `tool_calls` payload from spec §4,
`{"tool_calls":[{"tool":"shell","command":"ls"}]}`, inside a ```json fence —
each flattened pair is emitted twice. -/
theorem extract_tool_calls_fenced_payload_witness :
    extract_tool_calls (mkFence ('{' ::
      (str "\"tool_calls\":[\x7b\"tool\":\"shell\",\"command\":\"ls\"\x7d]" ++
        ['}']))) =
      [⟨str "shell", str "ls"⟩, ⟨str "shell", str "ls"⟩] := by
  have h := (extract_tool_calls_fenced_payload).2.2.2
    (str "\"tool_calls\":[\x7b\"tool\":\"shell\",\"command\":\"ls\"\x7d]")
    (Json.obj (.cons (str "tool_calls")
      (Json.arr (.cons (Json.obj (.cons (str "tool")
        (Json.str (str "shell"))
        (.cons (str "command") (Json.str (str "ls")) .nil))) .nil)) .nil))
    (balancedChk_sound (by decide)) (by decide) (by decide) (by decide)
    (by decide)
  rw [h]
  decide

/-- Counterexample to C2 as stated: for the well-formed fenced payload
`{"tool_calls":[{"tool":"shell","command":"ls"},{"tool":"","command":"pwd"}]}`
the flattened pairs dropping only empty-command entries would be
`[(shell, ls), ("", pwd)]`, but `extract_tool_calls` returns
`[(shell, ls), (shell, ls)]`: the empty-tool pair `("", pwd)` is dropped even
though its command is non-empty, and the surviving pair appears twice, not
exactly once. -/
theorem extract_tool_calls_duplicates_cx :
    extract_tool_calls (mkFence (str
      "\x7b\"tool_calls\":[\x7b\"tool\":\"shell\",\"command\":\"ls\"\x7d,\x7b\"tool\":\"\",\"command\":\"pwd\"\x7d]\x7d")) =
      [⟨str "shell", str "ls"⟩, ⟨str "shell", str "ls"⟩] ∧
    ([⟨str "shell", str "ls"⟩, ⟨str "shell", str "ls"⟩] : List ToolCall) ≠
      [⟨str "shell", str "ls"⟩, ⟨str "", str "pwd"⟩] := by
  constructor
  · decide
  · decide

end Dongshan
